import Mathlib

/-!
# Verification of the crossword CSP solver (`src/generate.py`)

A shallow embedding of the `CrosswordCreator` class of `generate.py`:
node consistency, the AC-3 fixpoint, the backtracking search and the
`solve` pipeline, together with theorems settling the frozen claims.

Conventions of the embedding:
* Python strings are `List Char`; Python string indexing `w[i]` is
  `pyIndex w i : Option Char`, where `none` models the `IndexError`
  raised on an out-of-range index. `Option` is threaded through every
  function that can raise (`none` = an exception propagates).
* Python `set`s of words are `List Word` (the sets in the program are
  duplicate-free, which appears as `Nodup` hypotheses where needed);
  `set.remove` is `List.erase`.
* The mutable `self.domains` dictionary is a total function
  `Variable → List Word`, threaded explicitly through the functions
  that mutate it (`enforce_node_consistency`, `revise`, `ac3`).
* The assignment dictionary is an insertion-ordered association list;
  `dGet`/`dSet`/`dPop` model the Python `dict` primitives.
* `set.pop` of the AC-3 work queue has an unspecified order in Python;
  the embedding processes the queue front-to-back (one admissible
  order), and `set.union` dedup is dropped (duplicate arcs are
  re-examinations with no effect on the fixpoint).
* Python `sorted` is modelled by a structurally recursive comparison
  sort (`sortBy`); only its permutation and sortedness properties are
  relied on, matching the spec's statement that tie-break order among
  equal keys is unspecified.
* The `while` loop of `ac3` and the recursion of `backtrack` are given
  explicit fuel; `.out` marks fuel exhaustion, and the development
  proves the fuel chosen by the wrappers is sufficient, so `.out` is
  unreachable there.
-/

/-- The two slot directions of `Variable` (crossword.py). -/
inductive Direction where
  | across
  | down
deriving DecidableEq, Repr

/-- Modelled from the spec: the `Variable` class of crossword.py (not under
src/). A slot has a starting row `i`, starting column `j`, a direction and a
length; two variables are equal iff all four attributes match. -/
structure Variable where
  i : Nat
  j : Nat
  direction : Direction
  length : Nat
deriving DecidableEq, Repr

/-- A Python string, as its list of characters. -/
abbrev Word := List Char

/-- Python string indexing `w[i]` (for the nonnegative indices used by the
program): `none` models the `IndexError` raised when `i` is out of range. -/
def pyIndex (w : Word) (i : Nat) : Option Char :=
  w.get? i

/-- Modelled from the spec: the `Crossword` puzzle model of crossword.py (not
under src/). It provides the list of variables, the word list, and the overlap
map; the overlap map is modelled as a total function (the real dict holds an
entry, possibly `None`, for every pair of distinct variables), and the spec's
requirement that it be symmetric appears as a hypothesis (`wfOverlaps`) where
a theorem needs it. -/
structure Crossword where
  vars : List Variable
  words : List Word
  overlaps : Variable → Variable → Option (Nat × Nat)

/-- Modelled from the spec: `crossword.neighbors(v)`, the set of all other
variables having a non-null overlap with `v`. -/
def Crossword.neighbors (c : Crossword) (v : Variable) : List Variable :=
  c.vars.filter (fun u => decide (u ≠ v) && (c.overlaps v u).isSome)

/-- The `self.domains` mapping, one candidate word list per variable. -/
abbrev Domains := Variable → List Word

/-- Pointwise update of the domains mapping (`self.domains[x] = ws`). -/
def updateDom (d : Domains) (v : Variable) (ws : List Word) : Domains :=
  fun u => if u = v then ws else d u

/-- `__init__`: every variable's domain starts as a copy of the word list. -/
def initDomains (c : Crossword) : Domains :=
  fun _ => c.words

/-! ## Python dict primitives for the assignment -/

/-- A (partial) assignment: the Python dict from variables to words, as an
insertion-ordered association list with unique keys. -/
abbrev Assign := List (Variable × Word)

/-- Python dict lookup `a.get(v)`. -/
def dGet (a : Assign) (v : Variable) : Option Word :=
  (a.find? (fun p => decide (p.1 = v))).map (fun p => p.2)

/-- Python dict assignment `a[v] = w`: update in place if the key is present,
append otherwise. -/
def dSet (a : Assign) (v : Variable) (w : Word) : Assign :=
  if (a.find? (fun p => decide (p.1 = v))).isSome then
    a.map (fun p => if p.1 = v then (v, w) else p)
  else
    a ++ [(v, w)]

/-- Python dict removal `a.pop(v)`. -/
def dPop (a : Assign) (v : Variable) : Assign :=
  a.filter (fun p => decide (p.1 ≠ v))

/-! ## Structural comparison sort, modelling Python `sorted` -/

/-- Insert an element into a sorted list (auxiliary to `sortBy`). -/
def insSorted (le : α → α → Bool) (x : α) : List α → List α
  | [] => [x]
  | y :: ys => if le x y then x :: y :: ys else y :: insSorted le x ys

/-- A structurally recursive comparison sort modelling Python `sorted`: the
result is a permutation of the input, sorted (`Pairwise le`) whenever `le` is
total and transitive. The order among equal keys is an implementation detail
here just as it is unspecified for the source's set iteration. -/
def sortBy (le : α → α → Bool) : List α → List α
  | [] => []
  | x :: xs => insSorted le x (sortBy le xs)

/-! ## Node consistency (`enforce_node_consistency`) -/

/-- The inner loop of `enforce_node_consistency`: walk a frozen copy of the
domain, `remove`-ing from the live list every word whose length differs from
the variable's length. -/
def pruneLen (n : Nat) : List Word → List Word → List Word
  | [], ws => ws
  | t :: rest, ws => pruneLen n rest (if n ≠ t.length then ws.erase t else ws)

/-- `enforce_node_consistency`: for each variable, remove every domain word
whose length differs from the variable's length. -/
def enforce_node_consistency (c : Crossword) (d : Domains) : Domains :=
  c.vars.foldl (fun d var => updateDom d var (pruneLen var.length (d var) (d var))) d

/-! ## Arc revision (`compare_domain`, `revise`) -/

/-- The inner loop of `compare_domain`: scan `ywords` for a word supporting
`xword`; a `yword` is skipped when too short or equal to `xword`; otherwise the
overlap characters are compared (raising, `none`, when an index is out of
range), breaking at the first match. `some b` is the final value of the
`consistent` flag. -/
def cdInner (x y : Nat) (xword : Word) : List Word → Option Bool
  | [] => some false
  | yword :: rest =>
    if yword.length < y ∨ xword = yword then
      cdInner x y xword rest
    else
      match pyIndex xword x, pyIndex yword y with
      | some cx, some cy => if cx = cy then some true else cdInner x y xword rest
      | _, _ => none

/-- The outer loop of `compare_domain`: iterate over a frozen copy of the
x-domain, skipping words shorter than the offset (the `continue` branch keeps
them) and `remove`-ing every word left unsupported by the inner scan. -/
def cdOuter (x y : Nat) (ywords : List Word) : List Word → List Word → Option (List Word)
  | [], xws => some xws
  | xword :: rest, xws =>
    if xword.length < x then
      cdOuter x y ywords rest xws
    else
      match cdInner x y xword ywords with
      | none => none
      | some true => cdOuter x y ywords rest xws
      | some false => cdOuter x y ywords rest (xws.erase xword)

/-- `compare_domain(x, y, xwords, ywords)`: returns the new x-domain, or
`none` if an `IndexError` escapes. -/
def compare_domain (x y : Nat) (xwords ywords : List Word) : Option (List Word) :=
  cdOuter x y ywords xwords xwords

/-- `revise(x, y)`: make `x` arc consistent with `y`. Returns the revision
flag together with the updated domains (`none` if an exception escapes); the
domains are reassigned only when a revision occurred, exactly as in the
source. -/
def revise (c : Crossword) (d : Domains) (x y : Variable) : Option (Bool × Domains) :=
  match c.overlaps x y with
  | none => some (false, d)
  | some o =>
    match compare_domain o.1 o.2 (d x) (d y) with
    | none => none
    | some new_xwords =>
      let revised : Bool := decide (new_xwords.length ≠ (d x).length)
      some (revised, if revised then updateDom d x new_xwords else d)

/-! ## AC-3 (`ac3`) -/

/-- An ordered arc of the AC-3 work queue. -/
abbrev Arc := Variable × Variable

/-- The result of an `ac3` run: `.ok flag domains` is a normal return,
`.exc` a propagating exception, `.out` fuel exhaustion (no Python
counterpart; proved unreachable for the fuel used by `ac3`). -/
inductive Ac3Res where
  | out
  | exc
  | ok (flag : Bool) (d : Domains)

/-- The returned boolean of an `ac3` run, when it returns normally. -/
def Ac3Res.flag : Ac3Res → Option Bool
  | .ok b _ => some b
  | _ => none

/-- The domains after an `ac3` run (falling back to `d` when the run did not
return normally). -/
def Ac3Res.doms : Ac3Res → Domains → Domains
  | .ok _ d2, _ => d2
  | _, d => d

/-- The initial work queue when no arc list is supplied: every ordered pair
`(v, n)` over each variable `v` and its neighbors `n`. -/
def seedArcs (c : Crossword) : List Arc :=
  c.vars.flatMap (fun v => (c.neighbors v).map (fun n => (v, n)))

/-- The `while` loop of `ac3`: pop an arc, `revise` it, fail if the revised
domain emptied, re-enqueue the affected arcs `(z, x)` for the neighbors `z` of
`x` other than `y` when a revision occurred. -/
def ac3Go (c : Crossword) : Nat → List Arc → Domains → Ac3Res
  | 0, _, _ => .out
  | _ + 1, [], d => .ok true d
  | fuel + 1, (x, y) :: rest, d =>
    match revise c d x y with
    | none => .exc
    | some (revised, d2) =>
      if revised then
        if (d2 x).length = 0 then .ok false d2
        else
          ac3Go c fuel
            (rest ++ ((c.neighbors x).filter (fun z => decide (z ≠ y))).map (fun z => (z, x)))
            d2
      else ac3Go c fuel rest d2

/-- Fuel sufficient for any run of `ac3Go` whose queue only revises puzzle
variables (proved in `ac3Go_no_out`): each iteration strictly decreases
`ac3Measure`. -/
def ac3Measure (c : Crossword) (q : List Arc) (d : Domains) : Nat :=
  (c.vars.map (fun v => (d v).length)).sum * (c.vars.length + 1) + q.length

/-- `ac3(arcs)`: seed the queue with all arcs when `arcs` is `None` or empty
(the Python test `if not arcs`), then run the fixpoint loop. -/
def ac3 (c : Crossword) (d : Domains) (arcs : Option (List Arc)) : Ac3Res :=
  match arcs with
  | none => ac3Go c (ac3Measure c (seedArcs c) d + 1) (seedArcs c) d
  | some [] => ac3Go c (ac3Measure c (seedArcs c) d + 1) (seedArcs c) d
  | some q => ac3Go c (ac3Measure c q d + 1) q d

/-! ## `assignment_complete` and `consistent` -/

/-- `assignment_complete`: the assignment covers every crossword variable. -/
def assignment_complete (c : Crossword) (a : Assign) : Bool :=
  c.vars.all (fun v => (dGet a v).isSome)

/-- The inner loop of `consistent`: compare `(var, word)` with every other
assigned `(nvar, nword)` at their overlap, if any; `some false` at the first
conflicting pair, `none` if an index is out of range. -/
def consInner (c : Crossword) (var : Variable) (word : Word) : Assign → Option Bool
  | [] => some true
  | (nvar, nword) :: rest =>
    if nvar ≠ var then
      match c.overlaps nvar var with
      | some o =>
        match pyIndex nword o.1, pyIndex word o.2 with
        | some cn, some cw =>
          if cn ≠ cw then some false else consInner c var word rest
        | _, _ => none
      | none => consInner c var word rest
    else consInner c var word rest

/-- The outer loop of `consistent`: check each assigned word's length, then
its overlaps against the whole assignment. -/
def consOuter (c : Crossword) (items : Assign) : Assign → Option Bool
  | [] => some true
  | (var, word) :: rest =>
    if word.length ≠ var.length then some false
    else
      match consInner c var word items with
      | none => none
      | some false => some false
      | some true => consOuter c items rest

/-- `consistent(assignment)`: no duplicate words (the `len(set(...))` test),
all lengths right, all overlap characters matching. `none` models an
`IndexError` escaping the character comparisons. -/
def consistent (c : Crossword) (a : Assign) : Option Bool :=
  if a.length ≠ (a.map (fun p => p.2)).dedup.length then some false
  else consOuter c a a

/-! ## `order_domain_values` -/

/-- Count the conflicts of `our` against one neighbor domain: one for every
neighbor word whose overlap character differs (`none` on `IndexError`). -/
def conflictCount (x y : Nat) (our : Word) : List Word → Nat → Option Nat
  | [], acc => some acc
  | nw :: rest, acc =>
    match pyIndex our x, pyIndex nw y with
    | some c1, some c2 => conflictCount x y our rest (if c1 ≠ c2 then acc + 1 else acc)
    | _, _ => none

/-- The `ruled_out` count of one candidate word over all unassigned
neighbors; the tuple unpacking `x, y = overlaps[var, nvar]` raises (`none`)
if the overlap were `None`. -/
def ruledOut (c : Crossword) (d : Domains) (var : Variable) (our : Word) :
    List Variable → Nat → Option Nat
  | [], acc => some acc
  | nvar :: rest, acc =>
    match c.overlaps var nvar with
    | none => none
    | some o =>
      match conflictCount o.1 o.2 our (d nvar) 0 with
      | none => none
      | some k => ruledOut c d var our rest (acc + k)

/-- The `ruled_out` dictionary: the count for every word of `var`'s domain. -/
def ruledOutTable (c : Crossword) (d : Domains) (var : Variable) (nb : List Variable) :
    List Word → Option (List (Word × Nat))
  | [] => some []
  | w :: rest =>
    match ruledOut c d var w nb 0 with
    | none => none
    | some k =>
      match ruledOutTable c d var nb rest with
      | none => none
      | some t => some ((w, k) :: t)

/-- Lookup in the `ruled_out` dictionary (every key is present when used). -/
def tableGet (t : List (Word × Nat)) (w : Word) : Nat :=
  ((t.find? (fun p => decide (p.1 = w))).map (fun p => p.2)).getD 0

/-- `order_domain_values(var, assignment)`: the domain of `var` sorted
ascending by the number of values ruled out among unassigned neighbors. -/
def order_domain_values (c : Crossword) (d : Domains) (var : Variable) (a : Assign) :
    Option (List Word) :=
  match ruledOutTable c d var
      ((c.neighbors var).filter (fun nvar => (dGet a nvar).isNone)) (d var) with
  | none => none
  | some t => some (sortBy (fun w1 w2 => decide (tableGet t w1 ≤ tableGet t w2)) (d var))

/-! ## `select_unassigned_variable` -/

/-- `select_unassigned_variable(assignment)`: among unassigned variables, sort
descending by degree, then (stably) ascending by number of remaining values,
and take the head; `none` models the `IndexError` of `s[0]` on an empty
candidate list. -/
def select_unassigned_variable (c : Crossword) (d : Domains) (a : Assign) :
    Option Variable :=
  (sortBy (fun u v => decide ((d u).length ≤ (d v).length))
    (sortBy (fun u v => decide ((c.neighbors v).length ≤ (c.neighbors u).length))
      (c.vars.filter (fun v => (dGet a v).isNone)))).head?

/-! ## Backtracking search (`backtrack`) -/

/-- The result of a `backtrack` call: `.ok res doms assign` is a normal
return carrying the returned value, the domains (read-only for the search)
and the final state of the mutated assignment dict; `.exc` a propagating
exception; `.out` fuel exhaustion (proved unreachable for the fuel used by
`solve`). -/
inductive BtRes where
  | out
  | exc
  | ok (res : Option Assign) (d : Domains) (a : Assign)

/-- The returned value of a `backtrack` (or `solve`) call, when it returns
normally. -/
def BtRes.result : BtRes → Option (Option Assign)
  | .ok res _ _ => some res
  | _ => none

/-- Python truthiness of a `backtrack` return value (`if result:`): `None`
and the empty dict are falsy. -/
def pyTruthy : Option Assign → Bool
  | none => false
  | some a => !a.isEmpty

/-- The `for value in self.order_domain_values(...)` loop of `backtrack`:
tentatively bind, check consistency, recurse through `bt`, short-circuit on a
truthy result, undo the binding and continue otherwise. -/
def btLoop (c : Crossword) (bt : Domains → Assign → BtRes) (var : Variable) :
    List Word → Domains → Assign → BtRes
  | [], d, a => .ok none d a
  | value :: rest, d, a =>
    let a1 := dSet a var value
    match consistent c a1 with
    | none => .exc
    | some true =>
      match bt d a1 with
      | .out => .out
      | .exc => .exc
      | .ok res d2 a2 =>
        if pyTruthy res then .ok res d2 a2
        else btLoop c bt var rest d2 (dPop a2 var)
    | some false => btLoop c bt var rest d (dPop a1 var)

/-- `backtrack(assignment)`: structural recursion on fuel (via `Nat.rec`, so
that the definition computes by kernel reduction); each nesting level of the
Python recursion consumes one unit of fuel. -/
def backtrack (c : Crossword) (fuel : Nat) : Domains → Assign → BtRes :=
  Nat.rec (fun _ _ => BtRes.out)
    (fun _ bt d a =>
      if assignment_complete c a then .ok (some a) d a
      else
        match select_unassigned_variable c d a with
        | none => .exc
        | some var =>
          match order_domain_values c d var a with
          | none => .exc
          | some vals => btLoop c bt var vals d a)
    fuel

/-- `solve()`: enforce node consistency, run `ac3` (its return value is
discarded, exactly as in the source — only the mutated domains and a possible
exception flow onward), then backtrack from the empty assignment. The
backtrack fuel `|variables| + 1` covers the maximal recursion depth. -/
def solve (c : Crossword) : BtRes :=
  match ac3 c (enforce_node_consistency c (initDomains c)) none with
  | .out => .out
  | .exc => .exc
  | .ok _ d2 => backtrack c (c.vars.length + 1) d2 []

/-! ## Instrumentation: counting `backtrack` invocations

`solveCalls` mirrors `solve`/`backtrack` step for step and counts how many
times the `backtrack` function is entered, making "without invoking the
backtracking search" (claim C1) an observable statement. -/

/-- The loop of `btCalls`: the control flow copies `btLoop`, summing the
invocation counts of the recursive `backtrack` calls. -/
def btCallsLoop (c : Crossword) (bt : Domains → Assign → BtRes)
    (btc : Domains → Assign → Nat) (var : Variable) :
    List Word → Domains → Assign → Nat
  | [], _, _ => 0
  | value :: rest, d, a =>
    let a1 := dSet a var value
    match consistent c a1 with
    | none => 0
    | some true =>
      match bt d a1 with
      | .ok res d2 a2 =>
        btc d a1 + (if pyTruthy res then 0 else btCallsLoop c bt btc var rest d2 (dPop a2 var))
      | _ => btc d a1
    | some false => btCallsLoop c bt btc var rest d (dPop a1 var)

/-- The number of times `backtrack` is entered when run with the given fuel,
domains and assignment (the call itself included). -/
def btCalls (c : Crossword) (fuel : Nat) : Domains → Assign → Nat :=
  Nat.rec (fun _ _ => 1)
    (fun n ih d a =>
      1 + (if assignment_complete c a then 0
        else
          match select_unassigned_variable c d a with
          | none => 0
          | some var =>
            match order_domain_values c d var a with
            | none => 0
            | some vals => btCallsLoop c (backtrack c n) ih var vals d a))
    fuel

/-- The number of `backtrack` invocations performed by `solve` (zero exactly
when the backtracking search is never entered). -/
def solveCalls (c : Crossword) : Nat :=
  match ac3 c (enforce_node_consistency c (initDomains c)) none with
  | .out => 0
  | .exc => 0
  | .ok _ d2 => btCalls c (c.vars.length + 1) d2 []

/-! ## Well-formedness of the puzzle model (spec §3)

The spec requires the overlap map to be symmetric and its offsets to come
from the grid geometry (hence to lie within both variables' lengths). These
appear as hypotheses, stated over the puzzle's variables so that they are
decidable on concrete puzzles. -/

/-- The overlap map is symmetric over the puzzle's variables, and every
overlap offset lies within the respective variable's length. -/
def wfOverlaps (c : Crossword) : Prop :=
  ∀ x ∈ c.vars, ∀ y ∈ c.vars,
    c.overlaps y x = (c.overlaps x y).map (fun ab => (ab.2, ab.1)) ∧
    (c.overlaps x y).all (fun ab => decide (ab.1 < x.length) && decide (ab.2 < y.length)) = true

instance (c : Crossword) : Decidable (wfOverlaps c) := by
  unfold wfOverlaps; exact inferInstance

/-! ## Derived notions used by the statements -/

/-- A word `w` of an x-domain is supported at overlap `(x, y)` by a y-domain:
some different word of `ywords` matches it at the overlap characters. This is
the support test that `compare_domain`'s inner loop computes for each word. -/
def hasSupport (x y : Nat) (ywords : List Word) (w : Word) : Bool :=
  ywords.any (fun v => !decide (w = v) && decide (pyIndex w x = pyIndex v y))

/-- Arc consistency of an x-domain with a y-domain at overlap offsets
`(x, y)`: every word has a distinct supporting word agreeing on the overlap
characters (spec §8, "arc consistency soundness"). -/
def arcConsistent (x y : Nat) (xws yws : List Word) : Prop :=
  ∀ w ∈ xws, ∃ v ∈ yws, v ≠ w ∧ ∃ ch, pyIndex w x = some ch ∧ pyIndex v y = some ch

/-! ## Concrete example puzzles used by the witness theorems -/

/-- A length-1 across slot at the origin. -/
def vA1 : Variable := ⟨0, 0, Direction.across, 1⟩

/-- A length-1 down slot at the origin (crossing `vA1`). -/
def vB1 : Variable := ⟨0, 0, Direction.down, 1⟩

/-- Two crossing length-1 slots over `{"a", "b"}`: the shared cell makes the
distinct-word requirement unsatisfiable, so AC-3 empties a domain. -/
def cwWit1 : Crossword :=
  { vars := [vA1, vB1]
    words := [['a'], ['b']]
    overlaps := fun u v =>
      if u = vA1 ∧ v = vB1 then some (0, 0)
      else if u = vB1 ∧ v = vA1 then some (0, 0) else none }

/-- A length-3 across slot. -/
def vA2 : Variable := ⟨0, 0, Direction.across, 3⟩

/-- A length-3 down slot crossing `vA2` at its second letter. -/
def vB2 : Variable := ⟨0, 1, Direction.down, 3⟩

/-- A solvable crossing: "cat" and "ate" agree on the shared letter. -/
def cwWit2 : Crossword :=
  { vars := [vA2, vB2]
    words := [['c', 'a', 't'], ['a', 't', 'e']]
    overlaps := fun u v =>
      if u = vA2 ∧ v = vB2 then some (1, 0)
      else if u = vB2 ∧ v = vA2 then some (0, 1) else none }

/-- A length-2 across slot. -/
def vA4 : Variable := ⟨0, 0, Direction.across, 2⟩

/-- A length-2 down slot crossing `vA4` at its first letter. -/
def vB4 : Variable := ⟨0, 0, Direction.down, 2⟩

/-- Two crossing length-2 slots over `{"ab", "ac"}`: each word of either
domain is supported by the other word, so AC-3 prunes nothing. -/
def cwWit4 : Crossword :=
  { vars := [vA4, vB4]
    words := [['a', 'b'], ['a', 'c']]
    overlaps := fun u v =>
      if u = vA4 ∧ v = vB4 then some (0, 0)
      else if u = vB4 ∧ v = vA4 then some (0, 0) else none }

/-- An isolated length-1 slot. -/
def v5 : Variable := ⟨0, 0, Direction.across, 1⟩

/-- An isolated slot whose only word has the wrong length: node consistency
empties its domain, and AC-3 (no arcs) never notices. -/
def cwWit5 : Crossword :=
  { vars := [v5]
    words := [['a', 'b']]
    overlaps := fun _ _ => none }

/-- An isolated length-1 slot (empty word list). -/
def v7 : Variable := ⟨1, 1, Direction.across, 1⟩

/-- A puzzle with one slot and no words: backtracking fails immediately. -/
def cwWit7 : Crossword :=
  { vars := [v7]
    words := []
    overlaps := fun _ _ => none }

/-! # Theorems

## The comparison sort -/

theorem insSorted_perm (le : α → α → Bool) (x : α) (l : List α) :
    List.Perm (insSorted le x l) (x :: l) := by
  induction l with
  | nil => exact List.Perm.refl _
  | cons y ys ih =>
    simp only [insSorted]
    split
    · exact List.Perm.refl _
    · exact (List.Perm.cons y ih).trans (List.Perm.swap x y ys)

theorem sortBy_perm (le : α → α → Bool) (l : List α) : List.Perm (sortBy le l) l := by
  induction l with
  | nil => exact List.Perm.refl _
  | cons x xs ih => exact (insSorted_perm le x (sortBy le xs)).trans (List.Perm.cons x ih)

theorem mem_sortBy {le : α → α → Bool} {l : List α} {a : α} :
    a ∈ sortBy le l ↔ a ∈ l :=
  (sortBy_perm le l).mem_iff

theorem insSorted_pairwise {le : α → α → Bool}
    (htrans : ∀ a b c, le a b = true → le b c = true → le a c = true)
    (htot : ∀ a b, le a b = true ∨ le b a = true) (x : α) {l : List α}
    (hl : l.Pairwise (fun a b => le a b = true)) :
    (insSorted le x l).Pairwise (fun a b => le a b = true) := by
  induction l with
  | nil => simp [insSorted]
  | cons y ys ih =>
    rcases List.pairwise_cons.mp hl with ⟨hy, hys⟩
    simp only [insSorted]
    split
    · rename_i hxy
      refine List.pairwise_cons.mpr ⟨?_, hl⟩
      intro z hz
      rcases List.mem_cons.mp hz with hz | hz
      · exact hz ▸ hxy
      · exact htrans _ _ _ hxy (hy _ hz)
    · rename_i hxy
      have hyx : le y x = true := by
        rcases htot x y with h | h
        · exact absurd h hxy
        · exact h
      refine List.pairwise_cons.mpr ⟨?_, ih hys⟩
      intro z hz
      rcases List.mem_cons.mp ((insSorted_perm le x ys).mem_iff.mp hz) with h | h
      · exact h ▸ hyx
      · exact hy _ h

theorem sortBy_pairwise {le : α → α → Bool}
    (htrans : ∀ a b c, le a b = true → le b c = true → le a c = true)
    (htot : ∀ a b, le a b = true ∨ le b a = true) (l : List α) :
    (sortBy le l).Pairwise (fun a b => le a b = true) := by
  induction l with
  | nil => simp [sortBy]
  | cons x xs ih => exact insSorted_pairwise htrans htot x ih

theorem sortBy_head_min {le : α → α → Bool}
    (htrans : ∀ a b c, le a b = true → le b c = true → le a c = true)
    (htot : ∀ a b, le a b = true ∨ le b a = true) {l : List α} {x : α}
    (hx : (sortBy le l).head? = some x) : ∀ y ∈ l, le x y = true := by
  intro y hy
  rcases hs : sortBy le l with _ | ⟨x0, t⟩
  · rw [hs] at hx; simp at hx
  · rw [hs] at hx
    simp only [List.head?_cons, Option.some_inj] at hx
    subst hx
    have hyt : y ∈ x0 :: t := hs ▸ mem_sortBy.mpr hy
    rcases List.mem_cons.mp hyt with h | h
    · subst h
      rcases htot y y with h3 | h3 <;> exact h3
    · have hp := sortBy_pairwise htrans htot l
      rw [hs] at hp
      exact (List.pairwise_cons.mp hp).1 _ h

theorem sortBy_head_mem {le : α → α → Bool} {l : List α} {x : α}
    (hx : (sortBy le l).head? = some x) : x ∈ l :=
  mem_sortBy.mp (List.mem_of_mem_head? hx)

/-! ## The assignment dict primitives -/

theorem dGet_eq_none_iff {a : Assign} {v : Variable} :
    dGet a v = none ↔ ∀ p ∈ a, p.1 ≠ v := by
  simp [dGet, List.find?_eq_none]

theorem dGet_some_mem {a : Assign} {v : Variable} {w : Word}
    (h : dGet a v = some w) : (v, w) ∈ a := by
  simp only [dGet, Option.map_eq_some'] at h
  rcases h with ⟨p, hp, hw⟩
  have hmem := List.mem_of_find?_eq_some hp
  have hkey : p.1 = v := by
    have := List.find?_some hp
    simpa using this
  cases p
  cases hkey
  cases hw
  exact hmem

theorem mem_dGet {a : Assign} {v : Variable} {w : Word}
    (hk : (a.map Prod.fst).Nodup) (h : (v, w) ∈ a) : dGet a v = some w := by
  induction a with
  | nil => cases h
  | cons p rest ih =>
    rcases List.mem_cons.mp h with h | h
    · cases h
      simp [dGet, List.find?]
    · rcases hk with _ | ⟨hp, hrest⟩
      have hne : p.1 ≠ v := by
        intro hpv
        exact hp (v, w).1 (List.mem_map_of_mem Prod.fst h) hpv
      simpa [dGet, List.find?_cons, hne] using ih (by simpa using hrest) h

theorem dSet_fresh {a : Assign} {v : Variable} (w : Word) (h : dGet a v = none) :
    dSet a v w = a ++ [(v, w)] := by
  have hf : a.find? (fun p => decide (p.1 = v)) = none := by
    simp only [dGet] at h
    exact Option.map_eq_none'.mp h
  simp [dSet, hf]

theorem dPop_dSet_fresh {a : Assign} {v : Variable} (w : Word) (h : dGet a v = none) :
    dPop (dSet a v w) v = a := by
  rw [dSet_fresh w h]
  have hkeys := dGet_eq_none_iff.mp h
  simp only [dPop, List.filter_append]
  rw [List.filter_eq_self.mpr, List.filter_cons]
  · simp
  · intro p hp
    simpa using hkeys p hp

theorem dGet_dSet_fresh {a : Assign} {v : Variable} (w : Word) (h : dGet a v = none) :
    dGet (dSet a v w) v = some w := by
  rw [dSet_fresh w h]
  have hf : a.find? (fun p => decide (p.1 = v)) = none := by
    simp only [dGet] at h
    exact Option.map_eq_none'.mp h
  simp [dGet, List.find?_append, hf]

theorem dGet_dSet_fresh_ne {a : Assign} {v u : Variable} (w : Word)
    (h : dGet a v = none) (hne : u ≠ v) :
    dGet (dSet a v w) u = dGet a u := by
  rw [dSet_fresh w h]
  simp only [dGet, List.find?_append]
  rcases hf : a.find? (fun p => decide (p.1 = u)) with _ | p
  · simp [List.find?, Ne.symm hne]
  · rw [hf]
    simp

theorem mem_dSet_fresh {a : Assign} {v : Variable} {w : Word} {p : Variable × Word}
    (h : dGet a v = none) : p ∈ dSet a v w ↔ p ∈ a ∨ p = (v, w) := by
  rw [dSet_fresh w h]
  simp

theorem keys_dSet_fresh {a : Assign} {v : Variable} (w : Word)
    (h : dGet a v = none) (hk : (a.map Prod.fst).Nodup) :
    ((dSet a v w).map Prod.fst).Nodup := by
  rw [dSet_fresh w h]
  have hkeys := dGet_eq_none_iff.mp h
  simp only [List.map_append, List.map_cons, List.map_nil]
  rw [List.nodup_append]
  refine ⟨hk, List.nodup_singleton v, ?_⟩
  intro x hx
  rcases List.mem_map.mp hx with ⟨p, hp, hpx⟩
  simp only [List.mem_singleton]
  intro hxv
  exact hkeys p hp (hpx.trans hxv)

theorem assignment_complete_iff {c : Crossword} {a : Assign} :
    assignment_complete c a = true ↔ ∀ v ∈ c.vars, (dGet a v).isSome := by
  simp [assignment_complete]

/-! ## Node consistency -/

theorem pruneLen_sublist (n : Nat) : ∀ (frozen ws : List Word),
    (pruneLen n frozen ws).Sublist ws := by
  intro frozen
  induction frozen with
  | nil => intro ws; exact List.Sublist.refl ws
  | cons t rest ih =>
    intro ws
    simp only [pruneLen]
    split
    · exact (ih (ws.erase t)).trans (List.erase_sublist t ws)
    · exact ih ws

theorem pruneLen_mem (n : Nat) : ∀ (frozen ws : List Word), ws.Nodup → ∀ w : Word,
    (w ∈ pruneLen n frozen ws ↔ w ∈ ws ∧ (n = w.length ∨ w ∉ frozen)) := by
  intro frozen
  induction frozen with
  | nil => intro ws _ w; simp [pruneLen]
  | cons t rest ih =>
    intro ws hnd w
    simp only [pruneLen]
    split
    · rename_i hne
      rw [ih (ws.erase t) (hnd.erase t) w]
      rw [List.Nodup.mem_erase_iff hnd]
      constructor
      · rintro ⟨⟨hwt, hw⟩, h⟩
        refine ⟨hw, ?_⟩
        rcases h with h | h
        · exact Or.inl h
        · exact Or.inr (by simp [hwt, h])
      · rintro ⟨hw, h⟩
        rcases h with h | h
        · have hwt : w ≠ t := by
            intro he
            exact hne (he ▸ h)
          exact ⟨⟨hwt, hw⟩, Or.inl h⟩
        · simp only [List.mem_cons, not_or] at h
          exact ⟨⟨h.1, hw⟩, Or.inr h.2⟩
    · rename_i heq
      rw [not_not] at heq
      rw [ih ws hnd w]
      constructor
      · rintro ⟨hw, h⟩
        refine ⟨hw, ?_⟩
        rcases h with h | h
        · exact Or.inl h
        · by_cases hwt : w = t
          · exact Or.inl (by rw [hwt]; exact heq)
          · exact Or.inr (by simp [hwt, h])
      · rintro ⟨hw, h⟩
        refine ⟨hw, ?_⟩
        rcases h with h | h
        · exact Or.inl h
        · simp only [List.mem_cons, not_or] at h
          exact Or.inr h.2

theorem enforce_sublist (c : Crossword) (d : Domains) (v : Variable) :
    ((enforce_node_consistency c d) v).Sublist (d v) := by
  unfold enforce_node_consistency
  generalize c.vars = L
  induction L generalizing d with
  | nil => exact List.Sublist.refl _
  | cons u rest ih =>
    simp only [List.foldl_cons]
    refine (ih _).trans ?_
    unfold updateDom
    split
    · rename_i hvu
      subst hvu
      exact pruneLen_sublist _ _ _
    · exact List.Sublist.refl _

theorem enforce_nodup (c : Crossword) (d : Domains) (hnd : ∀ v, (d v).Nodup) (v : Variable) :
    ((enforce_node_consistency c d) v).Nodup :=
  (hnd v).sublist (enforce_sublist c d v)

theorem enforce_mem (c : Crossword) (d : Domains) (hnd : ∀ v, (d v).Nodup)
    (v : Variable) (w : Word) :
    w ∈ (enforce_node_consistency c d) v ↔ w ∈ d v ∧ (v ∈ c.vars → v.length = w.length) := by
  unfold enforce_node_consistency
  generalize c.vars = L
  induction L generalizing d with
  | nil => simp
  | cons u rest ih =>
    simp only [List.foldl_cons]
    have hnd2 : ∀ x, ((updateDom d u (pruneLen u.length (d u) (d u))) x).Nodup := by
      intro x
      unfold updateDom
      split
      · exact (hnd u).sublist (pruneLen_sublist _ _ _)
      · exact hnd x
    rw [ih _ hnd2]
    unfold updateDom
    by_cases hvu : v = u
    · subst hvu
      simp only [eq_self_iff_true, if_true]
      rw [pruneLen_mem _ _ _ (hnd v)]
      constructor
      · rintro ⟨⟨hw, h⟩, _⟩
        rcases h with h | h
        · exact ⟨hw, fun _ => h⟩
        · exact absurd hw h
      · rintro ⟨hw, h⟩
        exact ⟨⟨hw, Or.inl (h (List.mem_cons_self v rest))⟩, fun _ => h (List.mem_cons_self v rest)⟩
    · simp only [if_neg hvu]
      constructor
      · rintro ⟨hw, h⟩
        refine ⟨hw, fun hv => ?_⟩
        rcases List.mem_cons.mp hv with h2 | h2
        · exact absurd h2 hvu
        · exact h h2
      · rintro ⟨hw, h⟩
        exact ⟨hw, fun hv => h (List.mem_cons_of_mem u hv)⟩

/-! ## Arc revision -/

theorem pyIndex_some {w : Word} {i : Nat} (h : i < w.length) : ∃ ch, pyIndex w i = some ch := by
  rcases hc : pyIndex w i with _ | ch
  · simp only [pyIndex] at hc
    rw [List.get?_eq_none] at hc
    omega
  · exact ⟨ch, rfl⟩

theorem cdInner_eq (x y : Nat) (xword : Word) (hx : x < xword.length) :
    ∀ ys : List Word, (∀ v ∈ ys, y < v.length) →
    cdInner x y xword ys =
      some (ys.any (fun v => !decide (xword = v) && decide (pyIndex xword x = pyIndex v y))) := by
  intro ys
  induction ys with
  | nil => intro _; simp [cdInner]
  | cons v rest ih =>
    intro hys
    have hv : y < v.length := hys v (List.mem_cons_self v rest)
    have hrest := fun u hu => hys u (List.mem_cons_of_mem v hu)
    simp only [cdInner]
    by_cases hxv : xword = v
    · rw [if_pos (Or.inr hxv)]
      rw [ih hrest]
      simp [hxv]
    · rw [if_neg (by push_neg; exact ⟨Nat.le_of_lt hv, hxv⟩)]
      obtain ⟨cx, hcx⟩ := pyIndex_some hx
      obtain ⟨cy, hcy⟩ := pyIndex_some hv
      rw [hcx, hcy]
      by_cases hcc : cx = cy
      · subst hcc
        simp [List.any_cons, hxv, hcx, hcy]
      · change (if cx = cy then some true else cdInner x y xword rest) = _
        rw [if_neg hcc, ih hrest]
        simp [List.any_cons, hcx, hcy, hcc]

theorem cdOuter_sublist (x y : Nat) (ys : List Word) :
    ∀ (frozen acc nw : List Word), cdOuter x y ys frozen acc = some nw → nw.Sublist acc := by
  intro frozen
  induction frozen with
  | nil =>
    intro acc nw h
    simp only [cdOuter, Option.some_inj] at h
    exact h ▸ List.Sublist.refl acc
  | cons t rest ih =>
    intro acc nw h
    simp only [cdOuter] at h
    split at h
    · exact ih acc nw h
    · rcases hinner : cdInner x y t ys with _ | b
      · rw [hinner] at h; cases h
      · rw [hinner] at h
        rcases b with _ | _
        · exact (ih _ nw h).trans (List.erase_sublist t acc)
        · exact ih acc nw h

theorem cdOuter_filter (x y : Nat) (ys : List Word) (hys : ∀ v ∈ ys, y < v.length) :
    ∀ (frozen acc : List Word), acc.Nodup → (∀ w ∈ frozen, x < w.length) →
    cdOuter x y ys frozen acc =
      some (acc.filter (fun w => hasSupport x y ys w || !decide (w ∈ frozen))) := by
  intro frozen
  induction frozen with
  | nil =>
    intro acc _ _
    simp [cdOuter, List.filter_eq_self]
  | cons t rest ih =>
    intro acc hacc hfr
    have ht : x < t.length := hfr t (List.mem_cons_self t rest)
    have hrest := fun u hu => hfr u (List.mem_cons_of_mem t hu)
    simp only [cdOuter]
    rw [if_neg (Nat.not_lt.mpr (Nat.le_of_lt ht))]
    rw [cdInner_eq x y t ht ys hys]
    rw [show (ys.any fun v => !decide (t = v) && decide (pyIndex t x = pyIndex v y))
      = hasSupport x y ys t from rfl]
    rcases hb : hasSupport x y ys t with _ | _
    · show cdOuter x y ys rest (acc.erase t)
        = some (acc.filter (fun w => hasSupport x y ys w || !decide (w ∈ t :: rest)))
      rw [ih (acc.erase t) (hacc.erase t) hrest]
      congr 1
      rw [List.Nodup.erase_eq_filter hacc, List.filter_filter]
      apply List.filter_congr
      intro w hw
      by_cases hwt : w = t
      · subst hwt
        simp [hb]
      · simp [hwt, List.mem_cons]
    · show cdOuter x y ys rest acc
        = some (acc.filter (fun w => hasSupport x y ys w || !decide (w ∈ t :: rest)))
      rw [ih acc hacc hrest]
      congr 1
      apply List.filter_congr
      intro w hw
      by_cases hwt : w = t
      · subst hwt
        simp [hb]
      · simp [hwt, List.mem_cons]

theorem compare_domain_filter (x y : Nat) (xs ys : List Word) (hnd : xs.Nodup)
    (hxs : ∀ w ∈ xs, x < w.length) (hys : ∀ v ∈ ys, y < v.length) :
    compare_domain x y xs ys = some (xs.filter (hasSupport x y ys)) := by
  unfold compare_domain
  rw [cdOuter_filter x y ys hys xs xs hnd hxs]
  congr 1
  apply List.filter_congr
  intro w hw
  simp [hw]

theorem hasSupport_mem {x y : Nat} {ys : List Word} {w : Word}
    (hx : x < w.length) (h : hasSupport x y ys w = true) :
    ∃ v ∈ ys, v ≠ w ∧ ∃ ch, pyIndex w x = some ch ∧ pyIndex v y = some ch := by
  unfold hasSupport at h
  rcases List.any_eq_true.mp h with ⟨v, hv, hp⟩
  simp only [Bool.and_eq_true, Bool.not_eq_true', decide_eq_false_iff_not,
    decide_eq_true_eq] at hp
  refine ⟨v, hv, fun he => hp.1 he.symm, ?_⟩
  obtain ⟨cx, hcx⟩ := pyIndex_some hx
  exact ⟨cx, hcx, by rw [← hp.2, hcx]⟩

theorem hasSupport_of (x y : Nat) {ys : List Word} {w v : Word} (hv : v ∈ ys) (hne : v ≠ w)
    {ch : Char} (hcw : pyIndex w x = some ch) (hcv : pyIndex v y = some ch) :
    hasSupport x y ys w = true := by
  unfold hasSupport
  refine List.any_eq_true.mpr ⟨v, hv, ?_⟩
  have hwv : ¬(w = v) := fun he => hne he.symm
  simp [hwv, hcw, hcv]

theorem revise_state {c : Crossword} {d : Domains} {x y : Variable} {b : Bool} {d2 : Domains}
    (h : revise c d x y = some (b, d2)) :
    (∀ v, v ≠ x → d2 v = d v) ∧ (d2 x).Sublist (d x) ∧ (b = false → d2 = d) := by
  unfold revise at h
  rcases ho : c.overlaps x y with _ | o
  · rw [ho] at h
    simp only [Option.some_inj, Prod.mk.injEq] at h
    refine ⟨fun v _ => h.2 ▸ rfl, h.2 ▸ List.Sublist.refl _, fun _ => h.2 ▸ rfl⟩
  · rw [ho] at h
    simp only at h
    rcases hcd : compare_domain o.1 o.2 (d x) (d y) with _ | nw
    · rw [hcd] at h; cases h
    · rw [hcd] at h
      simp only [Option.some_inj, Prod.mk.injEq] at h
      rcases h with ⟨hb, hd2⟩
      by_cases hrev : nw.length ≠ (d x).length
      · rw [if_pos (by simpa using hrev)] at hd2
        subst hd2
        refine ⟨fun v hv => by simp [updateDom, hv], ?_, ?_⟩
        · simp only [updateDom, if_pos rfl]
          exact cdOuter_sublist o.1 o.2 (d y) (d x) (d x) nw hcd
        · intro hbf
          rw [← hb] at hbf
          simp [hrev] at hbf
      · rw [if_neg (by simpa using hrev)] at hd2
        subst hd2
        exact ⟨fun _ _ => rfl, List.Sublist.refl _, fun _ => rfl⟩

theorem revise_char {c : Crossword} {d : Domains} {x y : Variable} {o : Nat × Nat}
    (ho : c.overlaps x y = some o) (hnd : (d x).Nodup)
    (hxs : ∀ w ∈ d x, o.1 < w.length) (hys : ∀ v ∈ d y, o.2 < v.length) :
    ∃ b, revise c d x y = some (b, updateDom d x ((d x).filter (hasSupport o.1 o.2 (d y)))) ∨
      (revise c d x y = some (b, d) ∧ (d x).filter (hasSupport o.1 o.2 (d y)) = d x) := by
  unfold revise
  simp only [ho]
  rw [compare_domain_filter o.1 o.2 (d x) (d y) hnd hxs hys]
  simp only
  by_cases hrev : ((d x).filter (hasSupport o.1 o.2 (d y))).length ≠ (d x).length
  · refine ⟨true, Or.inl ?_⟩
    simp [hrev]
  · rw [not_not] at hrev
    have heq : (d x).filter (hasSupport o.1 o.2 (d y)) = d x :=
      List.Sublist.eq_of_length (List.filter_sublist (d x)) hrev
    refine ⟨false, Or.inr ⟨?_, heq⟩⟩
    simp [hrev]

/-! ## AC-3 -/

theorem mem_neighbors {c : Crossword} {v u : Variable} :
    u ∈ c.neighbors v ↔ u ∈ c.vars ∧ u ≠ v ∧ (c.overlaps v u).isSome := by
  simp [Crossword.neighbors, List.mem_filter, and_assoc]

theorem seedArcs_wf {c : Crossword} {p : Arc} (hp : p ∈ seedArcs c) :
    p.1 ∈ c.vars ∧ p.2 ∈ c.vars ∧ p.1 ≠ p.2 := by
  rcases p with ⟨x, y⟩
  simp only [seedArcs, List.mem_flatMap, List.mem_map] at hp
  rcases hp with ⟨v, hv, n, hn, he⟩
  rcases mem_neighbors.mp hn with ⟨hn1, hn2, _⟩
  cases he
  exact ⟨hv, hn1, fun he2 => hn2 he2.symm⟩

theorem seedArcs_mem {c : Crossword} {x y : Variable} (hx : x ∈ c.vars)
    (hy : y ∈ c.vars) (hxy : y ≠ x) (ho : (c.overlaps x y).isSome) :
    (x, y) ∈ seedArcs c := by
  simp only [seedArcs, List.mem_flatMap, List.mem_map]
  exact ⟨x, hx, y, mem_neighbors.mpr ⟨hy, hxy, ho⟩, rfl⟩

theorem ac3Go_sublist (c : Crossword) : ∀ (fuel : Nat) (q : List Arc) (d : Domains)
    (b : Bool) (d2 : Domains), ac3Go c fuel q d = .ok b d2 →
    ∀ v, (d2 v).Sublist (d v) := by
  intro fuel
  induction fuel with
  | zero => intro q d b d2 h v; cases h
  | succ n ih =>
    intro q d b d2 h v
    rcases q with _ | ⟨⟨x, y⟩, rest⟩
    · simp only [ac3Go, Ac3Res.ok.injEq] at h
      exact h.2 ▸ List.Sublist.refl _
    · simp only [ac3Go] at h
      rcases hrev : revise c d x y with _ | ⟨b0, d3⟩
      · rw [hrev] at h; cases h
      · rw [hrev] at h
        have hst := revise_state hrev
        have hsub3 : ∀ u, (d3 u).Sublist (d u) := by
          intro u
          by_cases hux : u = x
          · exact hux ▸ hst.2.1
          · exact (hst.1 u hux) ▸ List.Sublist.refl _
        rcases b0 with _ | _
        · simp only [Bool.false_eq_true, if_false] at h
          exact (ih rest d3 b d2 h v).trans (hsub3 v)
        · simp only [if_true] at h
          by_cases hz : (d3 x).length = 0
          · rw [if_pos hz] at h
            injection h with h1 h2
            exact h2 ▸ hsub3 v
          · rw [if_neg hz] at h
            exact (ih _ d3 b d2 h v).trans (hsub3 v)

theorem revise_length_lt {c : Crossword} {d : Domains} {x y : Variable} {d3 : Domains}
    (h : revise c d x y = some (true, d3)) : (d3 x).length < (d x).length := by
  have hsub := (revise_state h).2.1
  rcases Nat.lt_or_ge (d3 x).length (d x).length with hlt | hge
  · exact hlt
  · exfalso
    have hle := hsub.length_le
    have hlen : (d3 x).length = (d x).length := Nat.le_antisymm hle hge
    have heq : d3 x = d x := hsub.eq_of_length hlen
    unfold revise at h
    rcases ho : c.overlaps x y with _ | o
    · rw [ho] at h
      simp at h
    · rw [ho] at h
      simp only at h
      rcases hcd : compare_domain o.1 o.2 (d x) (d y) with _ | nw
      · rw [hcd] at h; cases h
      · rw [hcd] at h
        simp only [Option.some_inj, Prod.mk.injEq] at h
        rcases h with ⟨hb, hd3⟩
        have hnw : nw.length ≠ (d x).length := of_decide_eq_true hb
        rw [if_pos hb] at hd3
        subst hd3
        simp only [updateDom, if_true, eq_self_iff_true] at heq
        exact hnw (by rw [heq])

theorem ac3Go_no_out (c : Crossword) : ∀ (fuel : Nat) (q : List Arc) (d : Domains),
    (∀ p ∈ q, (p : Arc).1 ∈ c.vars) → ac3Measure c q d < fuel →
    ac3Go c fuel q d ≠ .out := by
  intro fuel
  induction fuel with
  | zero => intro q d _ hm; omega
  | succ n ih =>
    intro q d hq hm
    rcases q with _ | ⟨⟨x, y⟩, rest⟩
    · simp [ac3Go]
    · have hx : x ∈ c.vars := hq (x, y) (List.mem_cons_self _ _)
      simp only [ac3Go]
      rcases hrev : revise c d x y with _ | ⟨b0, d3⟩
      · simp
      · have hst := revise_state hrev
        rcases b0 with _ | _
        · simp only [Bool.false_eq_true, if_false]
          have hd3 : d3 = d := hst.2.2 rfl
          subst hd3
          apply ih rest d3 (fun p hp => hq p (List.mem_cons_of_mem _ hp))
          simp only [ac3Measure, List.length_cons] at hm ⊢
          omega
        · simp only [if_true]
          by_cases hz : (d3 x).length = 0
          · rw [if_pos hz]
            simp
          · rw [if_neg hz]
            have hlt := revise_length_lt hrev
            have hsub3 : ∀ u, (d3 u).Sublist (d u) := by
              intro u
              by_cases hux : u = x
              · exact hux ▸ hst.2.1
              · exact (hst.1 u hux) ▸ List.Sublist.refl _
            apply ih _ d3
            · intro p hp
              rcases List.mem_append.mp hp with hp | hp
              · exact hq p (List.mem_cons_of_mem _ hp)
              · rcases List.mem_map.mp hp with ⟨z, hz2, he⟩
                cases he
                exact (mem_neighbors.mp (List.mem_filter.mp hz2).1).1
            · -- the measure strictly decreases: the domain sum drops by at
              -- least one K, the queue grows by at most K - 1 arcs
              have hK : ((c.neighbors x).filter (fun z => decide (z ≠ y))).length
                  ≤ c.vars.length := by
                calc ((c.neighbors x).filter (fun z => decide (z ≠ y))).length
                    ≤ (c.neighbors x).length := (List.filter_sublist _).length_le
                  _ ≤ c.vars.length := (List.filter_sublist _).length_le
              have hsum : (c.vars.map (fun v => (d3 v).length)).sum + 1
                  ≤ (c.vars.map (fun v => (d v).length)).sum := by
                have := List.sum_lt_sum (l := c.vars) (fun v => (d3 v).length)
                  (fun v => (d v).length)
                  (fun v _ => (hsub3 v).length_le)
                  ⟨x, hx, hlt⟩
                omega
              simp only [ac3Measure, List.length_append, List.length_cons,
                List.length_map] at hm ⊢
              have h2 : (c.vars.map (fun v => (d3 v).length)).sum * (c.vars.length + 1)
                  + (c.vars.length + 1)
                  ≤ (c.vars.map (fun v => (d v).length)).sum * (c.vars.length + 1) := by
                calc (c.vars.map (fun v => (d3 v).length)).sum * (c.vars.length + 1)
                    + (c.vars.length + 1)
                    = ((c.vars.map (fun v => (d3 v).length)).sum + 1) * (c.vars.length + 1) := by
                      ring
                  _ ≤ (c.vars.map (fun v => (d v).length)).sum * (c.vars.length + 1) :=
                      Nat.mul_le_mul_right _ hsum
              omega

theorem ac3Go_false_empty (c : Crossword) : ∀ (fuel : Nat) (q : List Arc) (d : Domains)
    (d2 : Domains), (∀ p ∈ q, (p : Arc).1 ∈ c.vars) → ac3Go c fuel q d = .ok false d2 →
    ∃ x ∈ c.vars, d2 x = [] := by
  intro fuel
  induction fuel with
  | zero => intro q d d2 _ h; cases h
  | succ n ih =>
    intro q d d2 hq h
    rcases q with _ | ⟨⟨x, y⟩, rest⟩
    · simp only [ac3Go, Ac3Res.ok.injEq] at h
      cases h.1
    · simp only [ac3Go] at h
      rcases hrev : revise c d x y with _ | ⟨b0, d3⟩
      · rw [hrev] at h; cases h
      · rw [hrev] at h
        rcases b0 with _ | _
        · simp only [Bool.false_eq_true, if_false] at h
          exact ih rest d3 d2 (fun p hp => hq p (List.mem_cons_of_mem _ hp)) h
        · simp only [if_true] at h
          by_cases hz : (d3 x).length = 0
          · rw [if_pos hz] at h
            injection h with h1 h2
            refine ⟨x, hq (x, y) (List.mem_cons_self _ _), ?_⟩
            rw [← h2]
            exact List.length_eq_zero.mp hz
          · rw [if_neg hz] at h
            apply ih _ d3 d2 ?_ h
            intro p hp
            rcases List.mem_append.mp hp with hp | hp
            · exact hq p (List.mem_cons_of_mem _ hp)
            · rcases List.mem_map.mp hp with ⟨z, hz2, he⟩
              cases he
              exact (mem_neighbors.mp (List.mem_filter.mp hz2).1).1

theorem ac3_none_eq (c : Crossword) (d : Domains) :
    ac3 c d none = ac3Go c (ac3Measure c (seedArcs c) d + 1) (seedArcs c) d := rfl

theorem ac3_not_out (c : Crossword) (d : Domains) : ac3 c d none ≠ .out := by
  rw [ac3_none_eq]
  exact ac3Go_no_out c _ _ d (fun p hp => (seedArcs_wf hp).1) (Nat.lt_succ_self _)

/-! ## The consistency predicate -/

theorem consInner_true_iff {c : Crossword} {var : Variable} {word : Word} :
    ∀ items : Assign, (consInner c var word items = some true ↔
      ∀ p ∈ items, (p : Variable × Word).1 ≠ var → ∀ o, c.overlaps p.1 var = some o →
        ∃ ch, pyIndex p.2 o.1 = some ch ∧ pyIndex word o.2 = some ch) := by
  intro items
  induction items with
  | nil => simp [consInner]
  | cons p rest ih =>
    rcases p with ⟨nvar, nword⟩
    simp only [consInner]
    by_cases hne : nvar ≠ var
    · rw [if_pos hne]
      rcases ho : c.overlaps nvar var with _ | o
      · rw [ih]
        constructor
        · intro h q hq hq2 o2 ho2
          rcases List.mem_cons.mp hq with hq | hq
          · cases hq
            rw [ho] at ho2
            cases ho2
          · exact h q hq hq2 o2 ho2
        · intro h q hq
          exact h q (List.mem_cons_of_mem _ hq)
      · change ((match pyIndex nword o.1, pyIndex word o.2 with
            | some cn, some cw => if cn ≠ cw then some false else consInner c var word rest
            | _, _ => none) = some true) ↔ _
        rcases hn : pyIndex nword o.1 with _ | cn
        · constructor
          · intro h; cases h
          · intro h
            exfalso
            rcases h (nvar, nword) (List.mem_cons_self _ _) hne o ho with ⟨ch, h1, _⟩
            rw [hn] at h1
            cases h1
        · rcases hw : pyIndex word o.2 with _ | cw
          · constructor
            · intro h; cases h
            · intro h
              exfalso
              rcases h (nvar, nword) (List.mem_cons_self _ _) hne o ho with ⟨ch, _, h2⟩
              rw [hw] at h2
              cases h2
          · change ((if cn ≠ cw then some false else consInner c var word rest) = some true) ↔ _
            by_cases hcc : cn ≠ cw
            · rw [if_pos hcc]
              constructor
              · intro h; cases h
              · intro h
                exfalso
                rcases h (nvar, nword) (List.mem_cons_self _ _) hne o ho with ⟨ch, h1, h2⟩
                rw [hn] at h1
                rw [hw] at h2
                cases h1
                cases h2
                exact hcc rfl
            · rw [if_neg hcc]
              rw [not_not] at hcc
              subst hcc
              rw [ih]
              constructor
              · intro h q hq hq2 o2 ho2
                rcases List.mem_cons.mp hq with hq | hq
                · cases hq
                  rw [ho] at ho2
                  cases ho2
                  exact ⟨cn, hn, hw⟩
                · exact h q hq hq2 o2 ho2
              · intro h q hq
                exact h q (List.mem_cons_of_mem _ hq)
    · rw [if_neg hne]
      rw [not_not] at hne
      subst hne
      rw [ih]
      constructor
      · intro h q hq hq2 o2 ho2
        rcases List.mem_cons.mp hq with hq | hq
        · cases hq
          exact absurd rfl hq2
        · exact h q hq hq2 o2 ho2
      · intro h q hq
        exact h q (List.mem_cons_of_mem _ hq)

theorem consOuter_true_iff {c : Crossword} {items : Assign} :
    ∀ rem : Assign, (consOuter c items rem = some true ↔
      ∀ p ∈ rem, (p : Variable × Word).2.length = p.1.length ∧
        consInner c p.1 p.2 items = some true) := by
  intro rem
  induction rem with
  | nil => simp [consOuter]
  | cons p rest ih =>
    rcases p with ⟨var, word⟩
    simp only [consOuter]
    by_cases hlen : word.length ≠ var.length
    · rw [if_pos hlen]
      constructor
      · intro h; cases h
      · intro h
        exact absurd (h (var, word) (List.mem_cons_self _ _)).1 hlen
    · rw [if_neg hlen]
      rw [not_not] at hlen
      rcases hi : consInner c var word items with _ | b
      · constructor
        · intro h; cases h
        · intro h
          rw [(h (var, word) (List.mem_cons_self _ _)).2] at hi
          cases hi
      · rcases b with _ | _
        · constructor
          · intro h; cases h
          · intro h
            rw [(h (var, word) (List.mem_cons_self _ _)).2] at hi
            cases hi
        · rw [ih]
          constructor
          · intro h q hq
            rcases List.mem_cons.mp hq with hq | hq
            · cases hq
              exact ⟨hlen, hi⟩
            · exact h q hq
          · intro h q hq
            exact h q (List.mem_cons_of_mem _ hq)

theorem values_nodup_iff {a : Assign} :
    a.length = (a.map (fun p => p.2)).dedup.length ↔ (a.map (fun p => p.2)).Nodup := by
  constructor
  · intro h
    have hlen : (a.map (fun p => p.2)).length = (a.map (fun p => p.2)).dedup.length := by
      rw [List.length_map]
      exact h
    have hsub : ((a.map (fun p => p.2)).dedup).Sublist (a.map (fun p => p.2)) :=
      List.dedup_sublist _
    have := hsub.eq_of_length hlen.symm
    rw [← this]
    exact List.nodup_dedup _
  · intro h
    rw [List.Nodup.dedup h, List.length_map]

theorem consistent_true_iff {c : Crossword} {a : Assign} :
    consistent c a = some true ↔
      (a.map (fun p => p.2)).Nodup ∧
      ∀ p ∈ a, (p : Variable × Word).2.length = p.1.length ∧
        ∀ q ∈ a, (q : Variable × Word).1 ≠ p.1 → ∀ o, c.overlaps q.1 p.1 = some o →
          ∃ ch, pyIndex q.2 o.1 = some ch ∧ pyIndex p.2 o.2 = some ch := by
  unfold consistent
  by_cases hd : a.length ≠ (a.map (fun p => p.2)).dedup.length
  · rw [if_pos hd]
    constructor
    · intro h; cases h
    · intro h
      exact absurd (values_nodup_iff.mpr h.1) hd
  · rw [if_neg hd]
    rw [not_not] at hd
    rw [consOuter_true_iff]
    constructor
    · intro h
      refine ⟨values_nodup_iff.mp hd, ?_⟩
      intro p hp
      rcases h p hp with ⟨h1, h2⟩
      exact ⟨h1, (consInner_true_iff a).mp h2⟩
    · intro h p hp
      rcases h.2 p hp with ⟨h1, h2⟩
      exact ⟨h1, (consInner_true_iff a).mpr h2⟩

theorem consistent_nil (c : Crossword) : consistent c [] = some true := rfl

theorem nodup_snd_of_entries {a ext : Assign} (hk : (a.map Prod.fst).Nodup)
    (hsub : ∀ p ∈ a, p ∈ ext) (hext : (ext.map (fun p => p.2)).Nodup) :
    (a.map (fun p => p.2)).Nodup := by
  induction a with
  | nil => simp
  | cons p rest ih =>
    simp only [List.map_cons, List.nodup_cons] at hk ⊢
    refine ⟨?_, ih hk.2 (fun q hq => hsub q (List.mem_cons_of_mem _ hq))⟩
    intro hmem
    rcases List.mem_map.mp hmem with ⟨q, hq, hqe⟩
    have hpq : p = q := List.inj_on_of_nodup_map hext
      (hsub p (List.mem_cons_self _ _)) (hsub q (List.mem_cons_of_mem _ hq)) hqe.symm
    have : p.1 ∈ rest.map Prod.fst := hpq ▸ List.mem_map_of_mem Prod.fst hq
    exact hk.1 this

theorem consistent_restrict {c : Crossword} {a ext : Assign}
    (hext : consistent c ext = some true) (hsub : ∀ p ∈ a, p ∈ ext)
    (hk : (a.map Prod.fst).Nodup) : consistent c a = some true := by
  rcases consistent_true_iff.mp hext with ⟨hvals, hprops⟩
  rw [consistent_true_iff]
  refine ⟨nodup_snd_of_entries hk hsub hvals, ?_⟩
  intro p hp
  rcases hprops p (hsub p hp) with ⟨h1, h2⟩
  exact ⟨h1, fun q hq => h2 q (hsub q hq)⟩

theorem consistent_ne_none {c : Crossword} (hwf : wfOverlaps c) {a : Assign}
    (hmem : ∀ p ∈ a, (p : Variable × Word).1 ∈ c.vars ∧ p.2.length = p.1.length) :
    consistent c a ≠ none := by
  unfold consistent
  split
  · simp
  · have hinner : ∀ (var : Variable) (word : Word), var ∈ c.vars → word.length = var.length →
        ∀ items : Assign, (∀ p ∈ items, (p : Variable × Word).1 ∈ c.vars ∧
          p.2.length = p.1.length) → consInner c var word items ≠ none := by
      intro var word hvar hword items
      induction items with
      | nil => intro _; simp [consInner]
      | cons p rest ih =>
        intro hm
        rcases p with ⟨nvar, nword⟩
        have hp := hm (nvar, nword) (List.mem_cons_self _ _)
        have hrest := fun q hq => hm q (List.mem_cons_of_mem _ hq)
        simp only [consInner]
        by_cases hne : nvar ≠ var
        · rw [if_pos hne]
          rcases ho : c.overlaps nvar var with _ | o
          · exact ih hrest
          · have hb := ((hwf nvar hp.1 var hvar).2)
            rw [ho] at hb
            simp only [Option.all_some, Bool.and_eq_true, decide_eq_true_eq] at hb
            obtain ⟨cn, hcn⟩ := pyIndex_some (w := nword) (i := o.1) (by
              rw [hp.2]; exact hb.1)
            obtain ⟨cw, hcw⟩ := pyIndex_some (w := word) (i := o.2) (by
              rw [hword]; exact hb.2)
            change (match pyIndex nword o.1, pyIndex word o.2 with
              | some cn, some cw => if cn ≠ cw then some false else consInner c var word rest
              | _, _ => none) ≠ none
            rw [hcn, hcw]
            change (if cn ≠ cw then some false else consInner c var word rest) ≠ none
            split
            · simp
            · exact ih hrest
        · rw [if_neg hne]
          exact ih hrest
    have houter : ∀ rem : Assign, (∀ p ∈ rem, (p : Variable × Word).1 ∈ c.vars ∧
        p.2.length = p.1.length) → consOuter c a rem ≠ none := by
      intro rem
      induction rem with
      | nil => intro _; simp [consOuter]
      | cons p rest ih =>
        intro hm
        rcases p with ⟨var, word⟩
        have hp := hm (var, word) (List.mem_cons_self _ _)
        simp only [consOuter]
        split
        · simp
        · rcases hi : consInner c var word a with _ | b
          · exact absurd hi (hinner var word hp.1 hp.2 a hmem)
          · rcases b with _ | _
            · simp
            · exact ih (fun q hq => hm q (List.mem_cons_of_mem _ hq))
    exact houter a hmem

theorem revise_char2 {c : Crossword} {d : Domains} {x y : Variable} {o : Nat × Nat}
    (ho : c.overlaps x y = some o) (hnd : (d x).Nodup)
    (hxs : ∀ w ∈ d x, o.1 < w.length) (hys : ∀ v ∈ d y, o.2 < v.length) :
    ∃ b d3, revise c d x y = some (b, d3) ∧
      d3 x = (d x).filter (hasSupport o.1 o.2 (d y)) ∧ (∀ v, v ≠ x → d3 v = d v) := by
  obtain ⟨b, hb⟩ := revise_char ho hnd hxs hys
  rcases hb with hb | ⟨hb, heq⟩
  · refine ⟨b, _, hb, ?_, ?_⟩
    · simp [updateDom]
    · intro v hv
      simp [updateDom, hv]
  · exact ⟨b, d, hb, heq.symm, fun _ _ => rfl⟩

theorem ac3Go_inv (c : Crossword) (hwf : wfOverlaps c) :
    ∀ (fuel : Nat) (q : List Arc) (d : Domains),
    (∀ p ∈ q, (p : Arc).1 ∈ c.vars ∧ p.2 ∈ c.vars ∧ p.1 ≠ p.2) →
    (∀ v ∈ c.vars, ∀ w ∈ d v, w.length = v.length) →
    (∀ v ∈ c.vars, (d v).Nodup) →
    (∀ x y, x ∈ c.vars → y ∈ c.vars → x ≠ y → ∀ o, c.overlaps x y = some o →
      (x, y) ∈ q ∨ arcConsistent o.1 o.2 (d x) (d y)) →
    ∀ d2, ac3Go c fuel q d = .ok true d2 →
    ∀ x y, x ∈ c.vars → y ∈ c.vars → x ≠ y → ∀ o, c.overlaps x y = some o →
      arcConsistent o.1 o.2 (d2 x) (d2 y) := by
  intro fuel
  induction fuel with
  | zero => intro q d _ _ _ _ d2 h; cases h
  | succ n ih =>
    intro q d hq hlen hnd hinv d2 h
    rcases q with _ | ⟨⟨x0, y0⟩, rest⟩
    · simp only [ac3Go, Ac3Res.ok.injEq] at h
      intro x y hx hy hxy o ho
      rcases hinv x y hx hy hxy o ho with hmem | harc
      · cases hmem
      · exact h.2 ▸ harc
    · rcases hq (x0, y0) (List.mem_cons_self _ _) with ⟨hx0, hy0, hne0⟩
      have hqrest := fun p hp => hq p (List.mem_cons_of_mem _ hp)
      simp only [ac3Go] at h
      rcases hov : c.overlaps x0 y0 with _ | o0
      · -- no overlap between the popped arc: revise makes no change
        have hrev : revise c d x0 y0 = some (false, d) := by
          unfold revise
          rw [hov]
        rw [hrev] at h
        simp only [Bool.false_eq_true, if_false] at h
        apply ih rest d hqrest hlen hnd ?_ d2 h
        intro x y hx hy hxy o ho
        rcases hinv x y hx hy hxy o ho with hmem | harc
        · rcases List.mem_cons.mp hmem with hmem | hmem
          · exfalso
            injection hmem with h1 h2
            subst h1; subst h2
            rw [hov] at ho
            cases ho
          · exact Or.inl hmem
        · exact Or.inr harc
      · -- an overlap: the revision replaces the x0 domain by its
        -- supported words
        have hbnd := (hwf x0 hx0 y0 hy0).2
        rw [hov] at hbnd
        simp only [Option.all_some, Bool.and_eq_true, decide_eq_true_eq] at hbnd
        have hxs : ∀ w ∈ d x0, o0.1 < w.length := fun w hw => by
          rw [hlen x0 hx0 w hw]; exact hbnd.1
        have hys : ∀ v ∈ d y0, o0.2 < v.length := fun v hv => by
          rw [hlen y0 hy0 v hv]; exact hbnd.2
        obtain ⟨b, d3, hrev, hd3x, hd3o⟩ := revise_char2 hov (hnd x0 hx0) hxs hys
        rw [hrev] at h
        have hd3sub : ∀ v, (d3 v).Sublist (d v) := by
          intro v
          by_cases hv : v = x0
          · subst hv
            rw [hd3x]
            exact List.filter_sublist _
          · rw [hd3o v hv]
        have hlen3 : ∀ v ∈ c.vars, ∀ w ∈ d3 v, w.length = v.length :=
          fun v hv w hw => hlen v hv w ((hd3sub v).mem hw)
        have hnd3 : ∀ v ∈ c.vars, (d3 v).Nodup := fun v hv => (hnd v hv).sublist (hd3sub v)
        have hy0x0 : y0 ≠ x0 := Ne.symm hne0
        have harc0 : arcConsistent o0.1 o0.2 (d3 x0) (d3 y0) := by
          intro w hw
          rw [hd3x] at hw
          rcases List.mem_filter.mp hw with ⟨hwmem, hwsupp⟩
          rcases hasSupport_mem (hxs w hwmem) hwsupp with ⟨v, hv, hvne, hch⟩
          exact ⟨v, (hd3o y0 hy0x0).symm ▸ hv, hvne, hch⟩
        rcases b with _ | _
        · -- no revision was made: every word of the x0 domain already
          -- had support
          have hd3d : d3 = d := ((revise_state hrev).2.2) rfl
          subst hd3d
          simp only [Bool.false_eq_true, if_false] at h
          apply ih rest d3 hqrest hlen hnd ?_ d2 h
          intro x y hx hy hxy o ho
          rcases hinv x y hx hy hxy o ho with hmem | harc
          · rcases List.mem_cons.mp hmem with hmem | hmem
            · injection hmem with h1 h2
              subst h1; subst h2
              rw [hov] at ho
              cases ho
              exact Or.inr harc0
            · exact Or.inl hmem
          · exact Or.inr harc
        · -- a revision was made
          simp only [if_true] at h
          by_cases hz : (d3 x0).length = 0
          · rw [if_pos hz] at h
            injection h with h1 h2
            cases h1
          · rw [if_neg hz] at h
            apply ih _ d3 ?_ hlen3 hnd3 ?_ d2 h
            · intro p hp
              rcases List.mem_append.mp hp with hp | hp
              · exact hqrest p hp
              · rcases List.mem_map.mp hp with ⟨z, hz2, he⟩
                cases he
                rcases mem_neighbors.mp (List.mem_filter.mp hz2).1 with ⟨hz3, hz4, _⟩
                exact ⟨hz3, hx0, hz4⟩
            · intro x y hx hy hxy o ho
              by_cases hyx0 : y = x0
              · subst hyx0
                by_cases hxy0 : x = y0
                · -- the arc (y0, x0): its consistency is preserved by the
                  -- symmetry of support, or it is still queued
                  subst hxy0
                  rcases hinv x y hx hy hxy o ho with hmem | harc
                  · rcases List.mem_cons.mp hmem with hmem | hmem
                    · injection hmem with h1 h2
                      exact absurd h1 hxy
                    · exact Or.inl (List.mem_append_left _ hmem)
                  · refine Or.inr ?_
                    intro u hu
                    rw [hd3o x hxy] at hu
                    rcases harc u hu with ⟨v, hv, hvne, ch, hc1, hc2⟩
                    have hsym := (hwf y hy x hx).1
                    rw [hov] at hsym
                    rw [ho] at hsym
                    simp only [Option.map_some', Option.some_inj] at hsym
                    refine ⟨v, ?_, hvne, ch, hc1, hc2⟩
                    rw [hd3x]
                    refine List.mem_filter.mpr ⟨hv, ?_⟩
                    apply hasSupport_of o0.1 o0.2 hu (fun he => hvne he.symm)
                    · rw [hsym] at hc2
                      simpa using hc2
                    · rw [hsym] at hc1
                      simpa using hc1
                · -- any other arc into x0 has been re-enqueued
                  refine Or.inl (List.mem_append_right _ ?_)
                  refine List.mem_map.mpr ⟨x, ?_, rfl⟩
                  refine List.mem_filter.mpr ⟨?_, by simpa using hxy0⟩
                  refine mem_neighbors.mpr ⟨hx, hxy, ?_⟩
                  rw [(hwf x hx y hx0).1, ho]
                  simp
              · -- arcs whose support side is not x0 are untouched
                rcases hinv x y hx hy hxy o ho with hmem | harc
                · rcases List.mem_cons.mp hmem with hmem | hmem
                  · injection hmem with h1 h2
                    subst h1; subst h2
                    rw [hov] at ho
                    cases ho
                    exact Or.inr harc0
                  · exact Or.inl (List.mem_append_left _ hmem)
                · refine Or.inr ?_
                  intro w hw
                  rcases harc w ((hd3sub x).mem hw) with ⟨v, hv, hvne, hch⟩
                  exact ⟨v, (hd3o y hyx0).symm ▸ hv, hvne, hch⟩

theorem ac3Go_no_exc (c : Crossword) (hwf : wfOverlaps c) :
    ∀ (fuel : Nat) (q : List Arc) (d : Domains),
    (∀ p ∈ q, (p : Arc).1 ∈ c.vars ∧ p.2 ∈ c.vars ∧ p.1 ≠ p.2) →
    (∀ v ∈ c.vars, ∀ w ∈ d v, w.length = v.length) →
    (∀ v ∈ c.vars, (d v).Nodup) →
    ac3Go c fuel q d ≠ .exc := by
  intro fuel
  induction fuel with
  | zero => intro q d _ _ _ h; cases h
  | succ n ih =>
    intro q d hq hlen hnd
    rcases q with _ | ⟨⟨x0, y0⟩, rest⟩
    · simp [ac3Go]
    · rcases hq (x0, y0) (List.mem_cons_self _ _) with ⟨hx0, hy0, _⟩
      have hqrest := fun p hp => hq p (List.mem_cons_of_mem _ hp)
      simp only [ac3Go]
      rcases hov : c.overlaps x0 y0 with _ | o0
      · have hrev : revise c d x0 y0 = some (false, d) := by
          unfold revise
          rw [hov]
        rw [hrev]
        simp only [Bool.false_eq_true, if_false]
        exact ih rest d hqrest hlen hnd
      · have hbnd := (hwf x0 hx0 y0 hy0).2
        rw [hov] at hbnd
        simp only [Option.all_some, Bool.and_eq_true, decide_eq_true_eq] at hbnd
        have hxs : ∀ w ∈ d x0, o0.1 < w.length := fun w hw => by
          rw [hlen x0 hx0 w hw]; exact hbnd.1
        have hys : ∀ v ∈ d y0, o0.2 < v.length := fun v hv => by
          rw [hlen y0 hy0 v hv]; exact hbnd.2
        obtain ⟨b, d3, hrev, hd3x, hd3o⟩ := revise_char2 hov (hnd x0 hx0) hxs hys
        rw [hrev]
        have hd3sub : ∀ v, (d3 v).Sublist (d v) := by
          intro v
          by_cases hv : v = x0
          · subst hv
            rw [hd3x]
            exact List.filter_sublist _
          · rw [hd3o v hv]
        have hlen3 : ∀ v ∈ c.vars, ∀ w ∈ d3 v, w.length = v.length :=
          fun v hv w hw => hlen v hv w ((hd3sub v).mem hw)
        have hnd3 : ∀ v ∈ c.vars, (d3 v).Nodup := fun v hv => (hnd v hv).sublist (hd3sub v)
        rcases b with _ | _
        · simp only [Bool.false_eq_true, if_false]
          exact ih rest d3 hqrest hlen3 hnd3
        · simp only [if_true]
          by_cases hz : (d3 x0).length = 0
          · rw [if_pos hz]
            simp
          · rw [if_neg hz]
            apply ih _ d3 ?_ hlen3 hnd3
            intro p hp
            rcases List.mem_append.mp hp with hp | hp
            · exact hqrest p hp
            · rcases List.mem_map.mp hp with ⟨z, hz2, he⟩
              cases he
              rcases mem_neighbors.mp (List.mem_filter.mp hz2).1 with ⟨hz3, hz4, _⟩
              exact ⟨hz3, hx0, hz4⟩

theorem sol_support {c : Crossword} {sol : Assign} {d : Domains} {x0 y0 : Variable}
    {o0 : Nat × Nat} (hov : c.overlaps x0 y0 = some o0) (hne0 : x0 ≠ y0)
    (hcons : consistent c sol = some true)
    {w0 wy : Word} (hw0 : dGet sol x0 = some w0) (hwy : dGet sol y0 = some wy)
    (hwyd : wy ∈ d y0) :
    hasSupport o0.1 o0.2 (d y0) w0 = true := by
  rcases consistent_true_iff.mp hcons with ⟨hvals, hprops⟩
  have hm0 : (x0, w0) ∈ sol := dGet_some_mem hw0
  have hmy : (y0, wy) ∈ sol := dGet_some_mem hwy
  have hne : wy ≠ w0 := by
    intro he
    have : (y0, wy) = (x0, w0) := by
      apply List.inj_on_of_nodup_map hvals hmy hm0
      simpa using he
    injection this with h1 _
    exact hne0 h1.symm
  rcases (hprops (y0, wy) hmy).2 (x0, w0) hm0 (by simpa using hne0) o0 hov
    with ⟨ch, hc1, hc2⟩
  exact hasSupport_of o0.1 o0.2 hwyd hne hc1 hc2

theorem ac3Go_sol (c : Crossword) (hwf : wfOverlaps c) {sol : Assign}
    (hcomp : ∀ v ∈ c.vars, ∃ w, dGet sol v = some w)
    (hcons : consistent c sol = some true) :
    ∀ (fuel : Nat) (q : List Arc) (d : Domains),
    (∀ p ∈ q, (p : Arc).1 ∈ c.vars ∧ p.2 ∈ c.vars ∧ p.1 ≠ p.2) →
    (∀ v ∈ c.vars, ∀ w ∈ d v, w.length = v.length) →
    (∀ v ∈ c.vars, (d v).Nodup) →
    (∀ v ∈ c.vars, ∀ w, dGet sol v = some w → w ∈ d v) →
    ∀ b d2, ac3Go c fuel q d = .ok b d2 →
    b = true ∧ ∀ v ∈ c.vars, ∀ w, dGet sol v = some w → w ∈ d2 v := by
  intro fuel
  induction fuel with
  | zero => intro q d _ _ _ _ b d2 h; cases h
  | succ n ih =>
    intro q d hq hlen hnd hdom b d2 h
    rcases q with _ | ⟨⟨x0, y0⟩, rest⟩
    · simp only [ac3Go, Ac3Res.ok.injEq] at h
      exact ⟨h.1.symm, h.2 ▸ hdom⟩
    · rcases hq (x0, y0) (List.mem_cons_self _ _) with ⟨hx0, hy0, hne0⟩
      have hqrest := fun p hp => hq p (List.mem_cons_of_mem _ hp)
      simp only [ac3Go] at h
      rcases hov : c.overlaps x0 y0 with _ | o0
      · have hrev : revise c d x0 y0 = some (false, d) := by
          unfold revise
          rw [hov]
        rw [hrev] at h
        simp only [Bool.false_eq_true, if_false] at h
        exact ih rest d hqrest hlen hnd hdom b d2 h
      · have hbnd := (hwf x0 hx0 y0 hy0).2
        rw [hov] at hbnd
        simp only [Option.all_some, Bool.and_eq_true, decide_eq_true_eq] at hbnd
        have hxs : ∀ w ∈ d x0, o0.1 < w.length := fun w hw => by
          rw [hlen x0 hx0 w hw]; exact hbnd.1
        have hys : ∀ v ∈ d y0, o0.2 < v.length := fun v hv => by
          rw [hlen y0 hy0 v hv]; exact hbnd.2
        obtain ⟨b0, d3, hrev, hd3x, hd3o⟩ := revise_char2 hov (hnd x0 hx0) hxs hys
        rw [hrev] at h
        have hd3sub : ∀ v, (d3 v).Sublist (d v) := by
          intro v
          by_cases hv : v = x0
          · subst hv
            rw [hd3x]
            exact List.filter_sublist _
          · rw [hd3o v hv]
        have hlen3 : ∀ v ∈ c.vars, ∀ w ∈ d3 v, w.length = v.length :=
          fun v hv w hw => hlen v hv w ((hd3sub v).mem hw)
        have hnd3 : ∀ v ∈ c.vars, (d3 v).Nodup := fun v hv => (hnd v hv).sublist (hd3sub v)
        -- the solution's words survive the revision
        have hdom3 : ∀ v ∈ c.vars, ∀ w, dGet sol v = some w → w ∈ d3 v := by
          intro v hv w hw
          by_cases hvx : v = x0
          · subst hvx
            rw [hd3x]
            refine List.mem_filter.mpr ⟨hdom v hv w hw, ?_⟩
            obtain ⟨wy, hwy⟩ := hcomp y0 hy0
            exact sol_support hov hne0 hcons hw hwy (hdom y0 hy0 wy hwy)
          · rw [hd3o v hvx]
            exact hdom v hv w hw
        rcases b0 with _ | _
        · simp only [Bool.false_eq_true, if_false] at h
          exact ih rest d3 hqrest hlen3 hnd3 hdom3 b d2 h
        · simp only [if_true] at h
          by_cases hz : (d3 x0).length = 0
          · exfalso
            obtain ⟨w0, hw0⟩ := hcomp x0 hx0
            have : w0 ∈ d3 x0 := hdom3 x0 hx0 w0 hw0
            rw [List.length_eq_zero.mp hz] at this
            cases this
          · rw [if_neg hz] at h
            apply ih _ d3 ?_ hlen3 hnd3 hdom3 b d2 h
            intro p hp
            rcases List.mem_append.mp hp with hp | hp
            · exact hqrest p hp
            · rcases List.mem_map.mp hp with ⟨z, hz2, he⟩
              cases he
              rcases mem_neighbors.mp (List.mem_filter.mp hz2).1 with ⟨hz3, hz4, _⟩
              exact ⟨hz3, hx0, hz4⟩

/-! ## Variable selection and value ordering -/

theorem filter_length_le_of_imp {α : Type _} (l : List α) (p q : α → Bool)
    (himp : ∀ x ∈ l, q x = true → p x = true) :
    (l.filter q).length ≤ (l.filter p).length := by
  induction l with
  | nil => simp
  | cons a rest ih =>
    have hrest := fun x hx => himp x (List.mem_cons_of_mem _ hx)
    simp only [List.filter_cons]
    rcases hqa : q a with _ | _
    · rcases hpa : p a with _ | _
      · exact ih hrest
      · calc (rest.filter q).length ≤ (rest.filter p).length := ih hrest
          _ ≤ (rest.filter p).length + 1 := Nat.le_succ _
          _ = (a :: rest.filter p).length := by simp
    · rw [himp a (List.mem_cons_self _ _) hqa]
      simpa using ih hrest

theorem filter_length_lt_of_imp {α : Type _} (l : List α) (p q : α → Bool)
    (himp : ∀ x ∈ l, q x = true → p x = true) {x0 : α} (hx0 : x0 ∈ l)
    (hp : p x0 = true) (hq : q x0 = false) :
    (l.filter q).length < (l.filter p).length := by
  induction l with
  | nil => cases hx0
  | cons a rest ih =>
    have hrest := fun x hx => himp x (List.mem_cons_of_mem _ hx)
    simp only [List.filter_cons]
    rcases List.mem_cons.mp hx0 with he | hmem
    · subst he
      rw [hq, hp]
      exact Nat.lt_succ_of_le (filter_length_le_of_imp rest p q hrest)
    · rcases hqa : q a with _ | _
      · rcases hpa : p a with _ | _
        · exact ih hrest hmem
        · calc (rest.filter q).length < (rest.filter p).length := ih hrest hmem
            _ ≤ (a :: rest.filter p).length := by simp [Nat.le_succ]
      · rw [himp a (List.mem_cons_self _ _) hqa]
        simpa using ih hrest hmem

theorem select_mem {c : Crossword} {d : Domains} {a : Assign} {var : Variable}
    (h : select_unassigned_variable c d a = some var) :
    var ∈ c.vars ∧ dGet a var = none := by
  unfold select_unassigned_variable at h
  have hmem := sortBy_head_mem h
  rw [mem_sortBy] at hmem
  rcases List.mem_filter.mp hmem with ⟨h1, h2⟩
  exact ⟨h1, by simpa [Option.isNone_iff_eq_none] using h2⟩

theorem select_isSome {c : Crossword} {d : Domains} {a : Assign}
    (h : assignment_complete c a = false) :
    ∃ var, select_unassigned_variable c d a = some var := by
  have : ∃ v ∈ c.vars, (dGet a v).isNone := by
    by_contra hc
    push_neg at hc
    have : assignment_complete c a = true := by
      rw [assignment_complete_iff]
      intro v hv
      have := hc v hv
      rcases hg : dGet a v with _ | w
      · rw [hg] at this; simp at this
      · simp
    rw [this] at h
    cases h
  rcases this with ⟨v, hv, hvn⟩
  unfold select_unassigned_variable
  have hvf : v ∈ c.vars.filter (fun v => (dGet a v).isNone) :=
    List.mem_filter.mpr ⟨hv, hvn⟩
  rcases hs : sortBy (fun u v => decide ((d u).length ≤ (d v).length))
      (sortBy (fun u v => decide ((c.neighbors v).length ≤ (c.neighbors u).length))
        (c.vars.filter (fun v => (dGet a v).isNone))) with _ | ⟨x, t⟩
  · exfalso
    have : v ∈ ([] : List Variable) := by
      rw [← hs, mem_sortBy, mem_sortBy]
      exact hvf
    cases this
  · exact ⟨x, rfl⟩

theorem select_min {c : Crossword} {d : Domains} {a : Assign} {var : Variable}
    (h : select_unassigned_variable c d a = some var) :
    ∀ u ∈ c.vars, dGet a u = none → (d var).length ≤ (d u).length := by
  intro u hu hun
  unfold select_unassigned_variable at h
  have hmin := @sortBy_head_min Variable
    (fun u v => decide ((d u).length ≤ (d v).length))
    (fun a b c hab hbc => by
      rw [decide_eq_true_iff] at hab hbc ⊢
      exact Nat.le_trans hab hbc)
    (fun a b => by
      rcases Nat.le_total (d a).length (d b).length with h2 | h2
      · exact Or.inl (by simpa using h2)
      · exact Or.inr (by simpa using h2)) _ _ h
  have humem : u ∈ sortBy (fun u v =>
      decide ((c.neighbors v).length ≤ (c.neighbors u).length))
      (c.vars.filter (fun v => (dGet a v).isNone)) := by
    rw [mem_sortBy]
    exact List.mem_filter.mpr ⟨hu, by simp [hun]⟩
  have := hmin u humem
  rwa [decide_eq_true_iff] at this

theorem conflictCount_some {x y : Nat} {our : Word} (hx : x < our.length) :
    ∀ (l : List Word), (∀ nw ∈ l, y < nw.length) → ∀ acc, ∃ k,
    conflictCount x y our l acc = some k := by
  intro l
  induction l with
  | nil => intro _ acc; exact ⟨acc, rfl⟩
  | cons nw rest ih =>
    intro hl acc
    obtain ⟨c1, hc1⟩ := pyIndex_some hx
    obtain ⟨c2, hc2⟩ := pyIndex_some (hl nw (List.mem_cons_self _ _))
    simp only [conflictCount, hc1, hc2]
    exact ih (fun u hu => hl u (List.mem_cons_of_mem _ hu)) _

theorem ruledOut_some {c : Crossword} (hwf : wfOverlaps c) {d : Domains} {var : Variable}
    (hvar : var ∈ c.vars)
    (hlen : ∀ v ∈ c.vars, ∀ w ∈ d v, w.length = v.length)
    {our : Word} (hour : our ∈ d var) :
    ∀ (nb : List Variable), (∀ nvar ∈ nb, nvar ∈ c.neighbors var) → ∀ acc, ∃ k,
    ruledOut c d var our nb acc = some k := by
  intro nb
  induction nb with
  | nil => intro _ acc; exact ⟨acc, rfl⟩
  | cons nvar rest ih =>
    intro hnb acc
    rcases mem_neighbors.mp (hnb nvar (List.mem_cons_self _ _)) with ⟨hn1, hn2, hn3⟩
    rcases ho : c.overlaps var nvar with _ | o
    · rw [ho] at hn3; cases hn3
    · have hbnd := (hwf var hvar nvar hn1).2
      rw [ho] at hbnd
      simp only [Option.all_some, Bool.and_eq_true, decide_eq_true_eq] at hbnd
      simp only [ruledOut, ho]
      obtain ⟨k0, hk0⟩ := conflictCount_some
        (by rw [hlen var hvar our hour]; exact hbnd.1)
        (d nvar) (fun nw hnw => by rw [hlen nvar hn1 nw hnw]; exact hbnd.2) 0
      rw [hk0]
      exact ih (fun u hu => hnb u (List.mem_cons_of_mem _ hu)) _

theorem ruledOutTable_some {c : Crossword} (hwf : wfOverlaps c) {d : Domains}
    {var : Variable} (hvar : var ∈ c.vars)
    (hlen : ∀ v ∈ c.vars, ∀ w ∈ d v, w.length = v.length)
    {nb : List Variable} (hnb : ∀ nvar ∈ nb, nvar ∈ c.neighbors var) :
    ∀ ws : List Word, (∀ w ∈ ws, w ∈ d var) → ∃ t,
    ruledOutTable c d var nb ws = some t := by
  intro ws
  induction ws with
  | nil => intro _; exact ⟨[], rfl⟩
  | cons w rest ih =>
    intro hws
    obtain ⟨k, hk⟩ := ruledOut_some hwf hvar hlen (hws w (List.mem_cons_self _ _)) nb hnb 0
    obtain ⟨t, ht⟩ := ih (fun u hu => hws u (List.mem_cons_of_mem _ hu))
    refine ⟨(w, k) :: t, ?_⟩
    simp only [ruledOutTable, hk, ht]

theorem odv_some {c : Crossword} (hwf : wfOverlaps c) {d : Domains} {var : Variable}
    (hvar : var ∈ c.vars) (a : Assign)
    (hlen : ∀ v ∈ c.vars, ∀ w ∈ d v, w.length = v.length) :
    ∃ vals, order_domain_values c d var a = some vals ∧ List.Perm vals (d var) := by
  unfold order_domain_values
  obtain ⟨t, ht⟩ := @ruledOutTable_some c hwf d var hvar hlen
    ((c.neighbors var).filter (fun nvar => (dGet a nvar).isNone))
    (fun nvar hn => (List.mem_filter.mp hn).1) (d var) (fun _ hw => hw)
  rw [ht]
  exact ⟨_, rfl, sortBy_perm _ _⟩

theorem odv_mem {c : Crossword} {d : Domains} {var : Variable} {a : Assign}
    {vals : List Word} (h : order_domain_values c d var a = some vals) :
    ∀ w ∈ vals, w ∈ d var := by
  unfold order_domain_values at h
  rcases ht : ruledOutTable c d var _ (d var) with _ | t
  · rw [ht] at h; cases h
  · rw [ht] at h
    simp only [Option.some_inj] at h
    intro w hw
    rw [← h] at hw
    exact mem_sortBy.mp hw

theorem odv_mem_rev {c : Crossword} {d : Domains} {var : Variable} {a : Assign}
    {vals : List Word} (h : order_domain_values c d var a = some vals) :
    ∀ w ∈ d var, w ∈ vals := by
  unfold order_domain_values at h
  rcases ht : ruledOutTable c d var _ (d var) with _ | t
  · rw [ht] at h; cases h
  · rw [ht] at h
    simp only [Option.some_inj] at h
    intro w hw
    rw [← h]
    exact mem_sortBy.mpr hw

theorem odv_empty {c : Crossword} {d : Domains} {var : Variable} {a : Assign}
    (h : d var = []) : order_domain_values c d var a = some [] := by
  unfold order_domain_values
  rw [h]
  rfl

/-! ## Backtracking search: state discipline -/

theorem backtrack_zero (c : Crossword) (d : Domains) (a : Assign) :
    backtrack c 0 d a = .out := rfl

theorem backtrack_succ (c : Crossword) (n : Nat) (d : Domains) (a : Assign) :
    backtrack c (n + 1) d a =
      (if assignment_complete c a then .ok (some a) d a
       else
         match select_unassigned_variable c d a with
         | none => .exc
         | some var =>
           match order_domain_values c d var a with
           | none => .exc
           | some vals => btLoop c (backtrack c n) var vals d a) := rfl

theorem btLoop_state (c : Crossword) (bt : Domains → Assign → BtRes)
    (hbt : ∀ d a res d2 a2, bt d a = .ok res d2 a2 →
      d2 = d ∧ (pyTruthy res = false → a2 = a)) (var : Variable) :
    ∀ (vals : List Word) (d : Domains) (a : Assign), dGet a var = none →
    ∀ res d2 a2, btLoop c bt var vals d a = .ok res d2 a2 →
    d2 = d ∧ (pyTruthy res = false → a2 = a) := by
  intro vals
  induction vals with
  | nil =>
    intro d a hvar res d2 a2 h
    simp only [btLoop, BtRes.ok.injEq] at h
    exact ⟨h.2.1.symm, fun _ => h.2.2.symm⟩
  | cons value rest ih =>
    intro d a hvar res d2 a2 h
    simp only [btLoop] at h
    rcases hc : consistent c (dSet a var value) with _ | _ | _
    · rw [hc] at h; cases h
    · rw [hc] at h
      simp only [] at h
      rw [dPop_dSet_fresh value hvar] at h
      exact ih d a hvar res d2 a2 h
    · rw [hc] at h
      simp only [] at h
      rcases hb : bt d (dSet a var value) with _ | _ | ⟨res0, d20, a20⟩
      · rw [hb] at h; cases h
      · rw [hb] at h; cases h
      · rw [hb] at h
        simp only [] at h
        rcases hbt d _ res0 d20 a20 hb with ⟨hd20, ha20⟩
        rcases ht : pyTruthy res0 with _ | _
        · rw [ht] at h
          simp only [Bool.false_eq_true, if_false] at h
          rw [ha20 ht, dPop_dSet_fresh value hvar, hd20] at h
          exact ih d a hvar res d2 a2 h
        · rw [ht] at h
          simp only [if_true, BtRes.ok.injEq] at h
          rcases h with ⟨h1, h2, h3⟩
          subst h1
          refine ⟨h2.symm ▸ hd20, fun hf => ?_⟩
          rw [ht] at hf
          cases hf

theorem backtrack_state (c : Crossword) : ∀ (fuel : Nat) (d : Domains) (a : Assign)
    (res : Option Assign) (d2 : Domains) (a2 : Assign),
    backtrack c fuel d a = .ok res d2 a2 → d2 = d ∧ (pyTruthy res = false → a2 = a) := by
  intro fuel
  induction fuel with
  | zero =>
    intro d a res d2 a2 h
    rw [backtrack_zero] at h
    cases h
  | succ n ih =>
    intro d a res d2 a2 h
    rw [backtrack_succ] at h
    by_cases hcomp : assignment_complete c a = true
    · rw [if_pos hcomp] at h
      injection h with h1 h2 h3
      exact ⟨h2.symm, fun _ => h3.symm⟩
    · rw [if_neg hcomp] at h
      rcases hsel : select_unassigned_variable c d a with _ | var
      · rw [hsel] at h; cases h
      · rw [hsel] at h
        simp only [] at h
        rcases hodv : order_domain_values c d var a with _ | vals
        · rw [hodv] at h; cases h
        · rw [hodv] at h
          simp only [] at h
          exact btLoop_state c (backtrack c n) (fun d a => ih d a) var vals d a
            (select_mem hsel).2 res d2 a2 h

/-! ## Backtracking search: soundness -/

theorem btLoop_sound (c : Crossword) (bt : Domains → Assign → BtRes)
    (hbtA : ∀ d a res d2 a2, bt d a = .ok res d2 a2 →
      d2 = d ∧ (pyTruthy res = false → a2 = a))
    (hbtS : ∀ d (a : Assign), (a.map Prod.fst).Nodup → consistent c a = some true →
      ∀ res d2 a2, bt d a = .ok res d2 a2 → ∀ r, res = some r →
        r = a2 ∧ (∃ t, r = a ++ t) ∧ (r.map Prod.fst).Nodup ∧
        assignment_complete c r = true ∧ consistent c r = some true ∧
        (∀ p ∈ r, p ∉ a → (p : Variable × Word).1 ∈ c.vars ∧ p.2 ∈ d p.1))
    (var : Variable) (hvarmem : var ∈ c.vars) :
    ∀ (vals : List Word) (d : Domains) (a : Assign), dGet a var = none →
    (∀ w ∈ vals, w ∈ d var) →
    (a.map Prod.fst).Nodup → consistent c a = some true →
    ∀ res d2 a2, btLoop c bt var vals d a = .ok res d2 a2 → ∀ r, res = some r →
      r = a2 ∧ (∃ t, r = a ++ t) ∧ (r.map Prod.fst).Nodup ∧
      assignment_complete c r = true ∧ consistent c r = some true ∧
      (∀ p ∈ r, p ∉ a → (p : Variable × Word).1 ∈ c.vars ∧ p.2 ∈ d p.1) := by
  intro vals
  induction vals with
  | nil =>
    intro d a hvar hvals hk hcons res d2 a2 h r hres
    simp only [btLoop, BtRes.ok.injEq] at h
    rw [← h.1] at hres
    cases hres
  | cons value rest ih =>
    intro d a hvar hvals hk hcons res d2 a2 h r hres
    simp only [btLoop] at h
    rcases hc : consistent c (dSet a var value) with _ | _ | _
    · rw [hc] at h; cases h
    · rw [hc] at h
      simp only [] at h
      rw [dPop_dSet_fresh value hvar] at h
      exact ih d a hvar (fun w hw => hvals w (List.mem_cons_of_mem _ hw)) hk hcons
        res d2 a2 h r hres
    · rw [hc] at h
      simp only [] at h
      rcases hb : bt d (dSet a var value) with _ | _ | ⟨res0, d20, a20⟩
      · rw [hb] at h; cases h
      · rw [hb] at h; cases h
      · rw [hb] at h
        simp only [] at h
        rcases hbtA d _ res0 d20 a20 hb with ⟨hd20, ha20⟩
        rcases ht : pyTruthy res0 with _ | _
        · rw [ht] at h
          simp only [Bool.false_eq_true, if_false] at h
          rw [ha20 ht, dPop_dSet_fresh value hvar, hd20] at h
          exact ih d a hvar (fun w hw => hvals w (List.mem_cons_of_mem _ hw)) hk hcons
            res d2 a2 h r hres
        · rw [ht] at h
          simp only [if_true, BtRes.ok.injEq] at h
          rcases h with ⟨h1, h2, h3⟩
          subst h1
          rcases hbtS d (dSet a var value) (keys_dSet_fresh value hvar hk) hc
            res0 d20 a20 hb r hres with ⟨hr1, ⟨t, hrt⟩, hr3, hr4, hr5, hr6⟩
          refine ⟨h3 ▸ hr1, ⟨[(var, value)] ++ t, ?_⟩, hr3, hr4, hr5, ?_⟩
          · rw [hrt, dSet_fresh value hvar, List.append_assoc]
          · intro p hp hpa
            by_cases hpa1 : p ∈ dSet a var value
            · rcases (mem_dSet_fresh hvar).mp hpa1 with hp2 | hp2
              · exact absurd hp2 hpa
              · subst hp2
                exact ⟨hvarmem, hvals value (List.mem_cons_self _ _)⟩
            · exact hr6 p hp hpa1

theorem backtrack_sound (c : Crossword) : ∀ (fuel : Nat) (d : Domains) (a : Assign),
    (a.map Prod.fst).Nodup → consistent c a = some true →
    ∀ res d2 a2, backtrack c fuel d a = .ok res d2 a2 → ∀ r, res = some r →
      r = a2 ∧ (∃ t, r = a ++ t) ∧ (r.map Prod.fst).Nodup ∧
      assignment_complete c r = true ∧ consistent c r = some true ∧
      (∀ p ∈ r, p ∉ a → (p : Variable × Word).1 ∈ c.vars ∧ p.2 ∈ d p.1) := by
  intro fuel
  induction fuel with
  | zero =>
    intro d a _ _ res d2 a2 h
    rw [backtrack_zero] at h
    cases h
  | succ n ih =>
    intro d a hk hcons res d2 a2 h r hres
    rw [backtrack_succ] at h
    by_cases hcomp : assignment_complete c a = true
    · rw [if_pos hcomp] at h
      injection h with h1 h2 h3
      rw [← h1] at hres
      injection hres with hres
      subst hres
      exact ⟨h3, ⟨[], by simp⟩, hk, hcomp, hcons, fun p hp hpa => absurd hp hpa⟩
    · rw [if_neg hcomp] at h
      rcases hsel : select_unassigned_variable c d a with _ | var
      · rw [hsel] at h; cases h
      · rw [hsel] at h
        simp only [] at h
        rcases hodv : order_domain_values c d var a with _ | vals
        · rw [hodv] at h; cases h
        · rw [hodv] at h
          simp only [] at h
          exact btLoop_sound c (backtrack c n) (fun d a => backtrack_state c n d a)
            (fun d a => ih d a) var (select_mem hsel).1 vals d a (select_mem hsel).2
            (odv_mem hodv) hk hcons res d2 a2 h r hres

/-! ## Backtracking search: absence of exceptions and of fuel exhaustion -/

theorem unassigned_dSet_lt (c : Crossword) {a : Assign} {var : Variable}
    (hvar : dGet a var = none) (hmem : var ∈ c.vars) (w : Word) :
    (c.vars.filter (fun v => (dGet (dSet a var w) v).isNone)).length
      < (c.vars.filter (fun v => (dGet a v).isNone)).length := by
  apply filter_length_lt_of_imp c.vars (fun v => (dGet a v).isNone)
    (fun v => (dGet (dSet a var w) v).isNone) ?_ hmem ?_ ?_
  · intro x _ hq
    simp only [] at hq ⊢
    by_cases hx : x = var
    · subst hx
      rw [dGet_dSet_fresh w hvar] at hq
      cases hq
    · rwa [dGet_dSet_fresh_ne w hvar hx] at hq
  · simp [hvar]
  · simp only []
    rw [dGet_dSet_fresh w hvar]
    rfl

theorem btLoop_ne (c : Crossword) (hwf : wfOverlaps c) (bt : Domains → Assign → BtRes)
    (hbtA : ∀ d a res d2 a2, bt d a = .ok res d2 a2 →
      d2 = d ∧ (pyTruthy res = false → a2 = a))
    (var : Variable) (hvarmem : var ∈ c.vars) (d : Domains) (a : Assign)
    (hvar : dGet a var = none) (_hk : (a.map Prod.fst).Nodup)
    (ha : ∀ p ∈ a, (p : Variable × Word).1 ∈ c.vars ∧ p.2.length = p.1.length)
    (hbtNE : ∀ value : Word, value.length = var.length →
      ∃ res d2 a2, bt d (dSet a var value) = .ok res d2 a2) :
    ∀ vals : List Word, (∀ w ∈ vals, w.length = var.length) →
    ∃ res d2 a2, btLoop c bt var vals d a = .ok res d2 a2 := by
  intro vals
  induction vals with
  | nil => intro _; exact ⟨none, d, a, rfl⟩
  | cons value rest ih =>
    intro hvals
    have hvlen := hvals value (List.mem_cons_self _ _)
    have hrest := fun w hw => hvals w (List.mem_cons_of_mem _ hw)
    have hcne : consistent c (dSet a var value) ≠ none := by
      apply consistent_ne_none hwf
      intro p hp
      rcases (mem_dSet_fresh hvar).mp hp with hp2 | hp2
      · exact ha p hp2
      · subst hp2
        exact ⟨hvarmem, hvlen⟩
    rcases hc : consistent c (dSet a var value) with _ | _ | _
    · exact absurd hc hcne
    · obtain ⟨res, d2, a2, h⟩ := ih hrest
      refine ⟨res, d2, a2, ?_⟩
      simp only [btLoop]
      rw [hc]
      simp only []
      rw [dPop_dSet_fresh value hvar]
      exact h
    · obtain ⟨res0, d20, a20, hb⟩ := hbtNE value hvlen
      rcases hbtA d _ res0 d20 a20 hb with ⟨hd20, ha20⟩
      rcases ht : pyTruthy res0 with _ | _
      · obtain ⟨res, d2, a2, h⟩ := ih hrest
        refine ⟨res, d2, a2, ?_⟩
        simp only [btLoop]
        rw [hc]
        simp only []
        rw [hb]
        simp only []
        rw [ht]
        simp only [Bool.false_eq_true, if_false]
        rw [ha20 ht, dPop_dSet_fresh value hvar, hd20]
        exact h
      · refine ⟨res0, d20, a20, ?_⟩
        simp only [btLoop]
        rw [hc]
        simp only []
        rw [hb]
        simp only []
        rw [ht]
        simp only [if_true]

theorem backtrack_ne (c : Crossword) (hwf : wfOverlaps c) :
    ∀ (fuel : Nat) (d : Domains) (a : Assign),
    (∀ v ∈ c.vars, ∀ w ∈ d v, w.length = v.length) →
    (a.map Prod.fst).Nodup →
    (∀ p ∈ a, (p : Variable × Word).1 ∈ c.vars ∧ p.2.length = p.1.length) →
    (c.vars.filter (fun v => (dGet a v).isNone)).length < fuel →
    ∃ res d2 a2, backtrack c fuel d a = .ok res d2 a2 := by
  intro fuel
  induction fuel with
  | zero => intro d a _ _ _ hfuel; omega
  | succ n ih =>
    intro d a hd hk ha hfuel
    by_cases hcomp : assignment_complete c a = true
    · exact ⟨some a, d, a, by rw [backtrack_succ, if_pos hcomp]⟩
    · obtain ⟨var, hsel⟩ := select_isSome (by
        rcases hb : assignment_complete c a with _ | _
        · rfl
        · exact absurd hb hcomp)
      rcases select_mem hsel with ⟨hvarmem, hvar⟩
      obtain ⟨vals, hodv, hperm⟩ := odv_some hwf hvarmem a hd
      obtain ⟨res, d2, a2, h⟩ := btLoop_ne c hwf (backtrack c n)
        (fun d a => backtrack_state c n d a) var hvarmem d a hvar hk ha
        (fun value hvlen => ih d (dSet a var value) hd
          (keys_dSet_fresh value hvar hk)
          (by
            intro p hp
            rcases (mem_dSet_fresh hvar).mp hp with hp2 | hp2
            · exact ha p hp2
            · subst hp2
              exact ⟨hvarmem, hvlen⟩)
          (by
            have := unassigned_dSet_lt c hvar hvarmem value
            omega))
        vals (fun w hw => hd var hvarmem w (hperm.mem_iff.mp hw))
      refine ⟨res, d2, a2, ?_⟩
      rw [backtrack_succ, if_neg hcomp, hsel]
      simp only []
      rw [hodv]
      simp only []
      exact h

/-! ## Backtracking search: completeness -/

theorem btLoop_complete (c : Crossword) (hwf : wfOverlaps c)
    (bt : Domains → Assign → BtRes)
    (hbtA : ∀ d a res d2 a2, bt d a = .ok res d2 a2 →
      d2 = d ∧ (pyTruthy res = false → a2 = a))
    (hbtS : ∀ d (a : Assign), (a.map Prod.fst).Nodup → consistent c a = some true →
      ∀ res d2 a2, bt d a = .ok res d2 a2 → ∀ r, res = some r →
        r = a2 ∧ (∃ t, r = a ++ t) ∧ (r.map Prod.fst).Nodup ∧
        assignment_complete c r = true ∧ consistent c r = some true ∧
        (∀ p ∈ r, p ∉ a → (p : Variable × Word).1 ∈ c.vars ∧ p.2 ∈ d p.1))
    (var : Variable) (hvarmem : var ∈ c.vars) (d : Domains) (a ext : Assign)
    (hvar : dGet a var = none) (hk : (a.map Prod.fst).Nodup)
    (ha : ∀ p ∈ a, (p : Variable × Word).1 ∈ c.vars ∧ p.2.length = p.1.length)
    (hconsext : consistent c ext = some true) (hsubext : ∀ p ∈ a, p ∈ ext)
    (hbtNE : ∀ value : Word, value.length = var.length →
      ∃ res d2 a2, bt d (dSet a var value) = .ok res d2 a2)
    (hbtC : ∀ value : Word, dGet ext var = some value →
      ∃ r d2 a2, bt d (dSet a var value) = .ok (some r) d2 a2) :
    ∀ vals : List Word, (∀ w ∈ vals, w.length = var.length) →
    (∃ value ∈ vals, dGet ext var = some value) →
    ∃ r d2 a2, btLoop c bt var vals d a = .ok (some r) d2 a2 := by
  intro vals
  induction vals with
  | nil =>
    rintro _ ⟨value, hmem, _⟩
    cases hmem
  | cons value rest ih =>
    rintro hvals ⟨value0, hmem0, hev0⟩
    have hvlen := hvals value (List.mem_cons_self _ _)
    have hrest := fun w hw => hvals w (List.mem_cons_of_mem _ hw)
    have ha1 : ∀ p ∈ dSet a var value, (p : Variable × Word).1 ∈ c.vars ∧
        p.2.length = p.1.length := by
      intro p hp
      rcases (mem_dSet_fresh hvar).mp hp with hp2 | hp2
      · exact ha p hp2
      · subst hp2
        exact ⟨hvarmem, hvlen⟩
    have hcne : consistent c (dSet a var value) ≠ none := consistent_ne_none hwf ha1
    rcases hc : consistent c (dSet a var value) with _ | _ | _
    · exact absurd hc hcne
    · -- the tentative binding is inconsistent: this cannot be the
      -- extension's value, so the witness lies in the remaining values
      have hev : dGet ext var ≠ some value := by
        intro hev
        have hsub1 : ∀ p ∈ dSet a var value, p ∈ ext := by
          intro p hp
          rcases (mem_dSet_fresh hvar).mp hp with hp2 | hp2
          · exact hsubext p hp2
          · subst hp2
            exact dGet_some_mem hev
        have := consistent_restrict hconsext hsub1 (keys_dSet_fresh value hvar hk)
        rw [hc] at this
        cases this
      have hmemr : value0 ∈ rest := by
        rcases List.mem_cons.mp hmem0 with he | he
        · subst he
          exact absurd hev0 hev
        · exact he
      obtain ⟨r, d2, a2, h⟩ := ih hrest ⟨value0, hmemr, hev0⟩
      refine ⟨r, d2, a2, ?_⟩
      simp only [btLoop]
      rw [hc]
      simp only []
      rw [dPop_dSet_fresh value hvar]
      exact h
    · obtain ⟨res0, d20, a20, hb⟩ := hbtNE value hvlen
      rcases hbtA d _ res0 d20 a20 hb with ⟨hd20, ha20⟩
      rcases ht : pyTruthy res0 with _ | _
      · -- falsy recursive result: the extension's value cannot be this one
        have hev : dGet ext var ≠ some value := by
          intro hev
          obtain ⟨r, d2x, a2x, hbC⟩ := hbtC value hev
          rw [hb] at hbC
          injection hbC with hb1 hb2 hb3
          rcases hbtS d (dSet a var value) (keys_dSet_fresh value hvar hk) hc
            res0 d20 a20 hb r hb1 with ⟨_, ⟨t, hrt⟩, _, _, _, _⟩
          have : pyTruthy res0 = true := by
            rw [hb1]
            simp only [pyTruthy]
            rw [hrt, dSet_fresh value hvar]
            simp
          rw [ht] at this
          cases this
        have hmemr : value0 ∈ rest := by
          rcases List.mem_cons.mp hmem0 with he | he
          · subst he
            exact absurd hev0 hev
          · exact he
        obtain ⟨r, d2, a2, h⟩ := ih hrest ⟨value0, hmemr, hev0⟩
        refine ⟨r, d2, a2, ?_⟩
        simp only [btLoop]
        rw [hc]
        simp only []
        rw [hb]
        simp only []
        rw [ht]
        simp only [Bool.false_eq_true, if_false]
        rw [ha20 ht, dPop_dSet_fresh value hvar, hd20]
        exact h
      · -- a truthy result propagates up
        rcases res0 with _ | r
        · rw [show pyTruthy none = false from rfl] at ht
          cases ht
        · refine ⟨r, d20, a20, ?_⟩
          simp only [btLoop]
          rw [hc]
          simp only []
          rw [hb]
          simp only []
          rw [ht]
          simp only [if_true]

theorem backtrack_complete (c : Crossword) (hwf : wfOverlaps c) :
    ∀ (fuel : Nat) (d : Domains) (a ext : Assign),
    (∀ v ∈ c.vars, ∀ w ∈ d v, w.length = v.length) →
    (a.map Prod.fst).Nodup →
    (∀ p ∈ a, (p : Variable × Word).1 ∈ c.vars ∧ p.2.length = p.1.length) →
    (c.vars.filter (fun v => (dGet a v).isNone)).length < fuel →
    consistent c ext = some true →
    assignment_complete c ext = true →
    (∀ p ∈ a, p ∈ ext) →
    (∀ v ∈ c.vars, dGet a v = none → ∀ w, dGet ext v = some w → w ∈ d v) →
    ∃ r d2 a2, backtrack c fuel d a = .ok (some r) d2 a2 := by
  intro fuel
  induction fuel with
  | zero => intro d a ext _ _ _ hfuel _ _ _ _; omega
  | succ n ih =>
    intro d a ext hd hk ha hfuel hconsext hcompext hsubext hdomext
    by_cases hcomp : assignment_complete c a = true
    · exact ⟨a, d, a, by rw [backtrack_succ, if_pos hcomp]⟩
    · obtain ⟨var, hsel⟩ := select_isSome (by
        rcases hb : assignment_complete c a with _ | _
        · rfl
        · exact absurd hb hcomp)
      rcases select_mem hsel with ⟨hvarmem, hvar⟩
      obtain ⟨vals, hodv, hperm⟩ := odv_some hwf hvarmem a hd
      obtain ⟨w0, hw0⟩ : ∃ w0, dGet ext var = some w0 := by
        have := assignment_complete_iff.mp hcompext var hvarmem
        rcases hg : dGet ext var with _ | w0
        · rw [hg] at this; cases this
        · exact ⟨w0, rfl⟩
      have hw0d : w0 ∈ d var := hdomext var hvarmem hvar w0 hw0
      obtain ⟨r, d2, a2, h⟩ := btLoop_complete c hwf (backtrack c n)
        (fun d a => backtrack_state c n d a) (fun d a => backtrack_sound c n d a)
        var hvarmem d a ext hvar hk ha hconsext hsubext
        (fun value hvlen => backtrack_ne c hwf n d (dSet a var value) hd
          (keys_dSet_fresh value hvar hk)
          (by
            intro p hp
            rcases (mem_dSet_fresh hvar).mp hp with hp2 | hp2
            · exact ha p hp2
            · subst hp2
              exact ⟨hvarmem, hvlen⟩)
          (by
            have := unassigned_dSet_lt c hvar hvarmem value
            omega))
        (fun value hev => by
          have hvw0 : value = w0 := by
            rw [hev] at hw0
            injection hw0
          subst hvw0
          apply ih d (dSet a var value) ext hd
            (keys_dSet_fresh value hvar hk)
            (by
              intro p hp
              rcases (mem_dSet_fresh hvar).mp hp with hp2 | hp2
              · exact ha p hp2
              · subst hp2
                exact ⟨hvarmem, hd var hvarmem value hw0d⟩)
            (by
              have := unassigned_dSet_lt c hvar hvarmem value
              omega)
            hconsext hcompext
            (by
              intro p hp
              rcases (mem_dSet_fresh hvar).mp hp with hp2 | hp2
              · exact hsubext p hp2
              · subst hp2
                exact dGet_some_mem hev)
            (by
              intro v hv hvn w hw
              by_cases hvv : v = var
              · subst hvv
                rw [dGet_dSet_fresh value hvar] at hvn
                cases hvn
              · rw [dGet_dSet_fresh_ne value hvar hvv] at hvn
                exact hdomext v hv hvn w hw))
        vals (fun w hw => hd var hvarmem w (hperm.mem_iff.mp hw))
        ⟨w0, odv_mem_rev hodv w0 hw0d, hw0⟩
      refine ⟨r, d2, a2, ?_⟩
      rw [backtrack_succ, if_neg hcomp, hsel]
      simp only []
      rw [hodv]
      simp only []
      exact h

/-! ## The claims -/

/-- C6: after `enforce_node_consistency` runs, for every variable `v` of the
puzzle, a word remains in `domain(v)` exactly when it was there before and its
length equals `v.length`: every remaining word has the variable's length, and
only length-mismatched words are removed. -/
theorem claim6_node_consistency (c : Crossword) (d : Domains)
    (hnd : ∀ v, (d v).Nodup) :
    ∀ v ∈ c.vars, ∀ w : Word,
      w ∈ (enforce_node_consistency c d) v ↔ (w ∈ d v ∧ w.length = v.length) := by
  intro v hv w
  rw [enforce_mem c d hnd v w]
  constructor
  · rintro ⟨h1, h2⟩
    exact ⟨h1, (h2 hv).symm⟩
  · rintro ⟨h1, h2⟩
    exact ⟨h1, fun _ => h2.symm⟩

theorem claim6_witness :
    (['a'] : Word) ∈ (enforce_node_consistency cwWit1 (initDomains cwWit1)) vA1 ↔
      ((['a'] : Word) ∈ initDomains cwWit1 vA1 ∧ (['a'] : Word).length = vA1.length) :=
  claim6_node_consistency cwWit1 (initDomains cwWit1)
    (fun _ => (by decide : cwWit1.words.Nodup)) vA1 (by decide) ['a']

/-- C9: calling `ac3` with an explicitly supplied empty arc list behaves
identically to calling it with `arcs = None`: the Python test `if not arcs`
treats both alike, so the queue is seeded with every ordered `(v, neighbor)`
pair rather than returning `True` immediately. -/
theorem claim9_empty_arcs (c : Crossword) (d : Domains) :
    ac3 c d (some []) = ac3 c d none := rfl

/-- C5 is a code bug: `ac3` can return `True` while a domain is empty. On
`cwWit5` — one isolated slot whose only word has the wrong length — node
consistency empties the slot's domain, yet the seeded queue has no arcs, so
`ac3` returns `True` with that domain still empty, contradicting its
docstring ("Return True if ... no domains are empty") and the spec. -/
theorem claim5_code_bug :
    (ac3 cwWit5 (enforce_node_consistency cwWit5 (initDomains cwWit5)) none).flag
        = some true ∧
      v5 ∈ cwWit5.vars ∧
      (ac3 cwWit5 (enforce_node_consistency cwWit5 (initDomains cwWit5)) none).doms
        (enforce_node_consistency cwWit5 (initDomains cwWit5)) v5 = [] := by
  refine ⟨by decide, by decide, ?_⟩
  decide

/-- C7: backtracking undo atomicity — whenever `backtrack` returns `None`,
the assignment dict is exactly as it was on entry: every tentative binding
added during the call has been removed on every exit path. -/
theorem claim7_undo (c : Crossword) (fuel : Nat) (d : Domains) (a : Assign)
    (d2 : Domains) (a2 : Assign) (h : backtrack c fuel d a = .ok none d2 a2) :
    a2 = a :=
  (backtrack_state c fuel d a none d2 a2 h).2 rfl

theorem claim7_witness : ([] : Assign) = ([] : Assign) :=
  claim7_undo cwWit7 2 (fun _ => []) [] (fun _ => []) [] (by rfl)

/-- C8: domains never grow and the search never touches them — after
`enforce_node_consistency`, `revise` or `ac3`, every variable's domain is a
sublist (hence a subset) of what it was before the call, and `backtrack`
returns the domains mapping unchanged. -/
theorem claim8_domains_shrink (c : Crossword) :
    (∀ (d : Domains) (v : Variable),
      ((enforce_node_consistency c d) v).Sublist (d v)) ∧
    (∀ (d : Domains) (x y : Variable) (b : Bool) (d2 : Domains),
      revise c d x y = some (b, d2) → ∀ v, (d2 v).Sublist (d v)) ∧
    (∀ (d : Domains) (arcs : Option (List Arc)) (b : Bool) (d2 : Domains),
      ac3 c d arcs = .ok b d2 → ∀ v, (d2 v).Sublist (d v)) ∧
    (∀ (fuel : Nat) (d : Domains) (a : Assign) (res : Option Assign)
      (d2 : Domains) (a2 : Assign),
      backtrack c fuel d a = .ok res d2 a2 → d2 = d) := by
  refine ⟨enforce_sublist c, ?_, ?_, ?_⟩
  · intro d x y b d2 h v
    rcases revise_state h with ⟨hother, hsub, _⟩
    by_cases hv : v = x
    · exact hv ▸ hsub
    · exact (hother v hv) ▸ List.Sublist.refl _
  · intro d arcs b d2 h v
    rcases arcs with _ | ⟨_ | ⟨p, q⟩⟩
    · exact ac3Go_sublist c _ _ d b d2 h v
    · exact ac3Go_sublist c _ _ d b d2 h v
    · exact ac3Go_sublist c _ _ d b d2 h v
  · intro fuel d a res d2 a2 h
    exact (backtrack_state c fuel d a res d2 a2 h).1

theorem claim8_witness :
    ((enforce_node_consistency cwWit7 (initDomains cwWit7)) v7).Sublist
        (initDomains cwWit7 v7) ∧
      ((fun _ => []) v7 : List Word).Sublist (initDomains cwWit7 v7) ∧
      ((fun _ => []) v7 : List Word).Sublist (initDomains cwWit7 v7) ∧
      ((fun _ => ([] : List Word)) : Domains) = (fun _ => []) := by
  refine ⟨(claim8_domains_shrink cwWit7).1 (initDomains cwWit7) v7, ?_, ?_, ?_⟩
  · exact (claim8_domains_shrink cwWit7).2.1 (initDomains cwWit7) v7 v7 false
      (fun _ => []) (by rfl) v7
  · exact (claim8_domains_shrink cwWit7).2.2.1 (initDomains cwWit7) none true
      (fun _ => []) (by rfl) v7
  · exact (claim8_domains_shrink cwWit7).2.2.2 3 (fun _ => []) [] none
      (fun _ => []) [] (by rfl)

/-- C10: implicit safety of `revise` — under the precondition that every word
of `domain(x)` is strictly longer than the overlap offset `a` and every word
of `domain(y)` strictly longer than `b`, every character access performed by
`revise(x, y)` via `compare_domain` is in bounds: neither function reaches the
out-of-bounds (`none`, `IndexError`) branch of the embedded indexing. -/
theorem claim10_safety (c : Crossword) (d : Domains) (x y : Variable)
    (a b : Nat) (hov : c.overlaps x y = some (a, b))
    (hxs : ∀ w ∈ d x, a < w.length) (hys : ∀ v ∈ d y, b < v.length) :
    compare_domain a b (d x) (d y) ≠ none ∧ revise c d x y ≠ none := by
  have hcd : ∀ (frozen acc : List Word), (∀ w ∈ frozen, a < w.length) →
      cdOuter a b (d y) frozen acc ≠ none := by
    intro frozen
    induction frozen with
    | nil => intro acc _; simp [cdOuter]
    | cons t rest ih =>
      intro acc hfr
      have ht : a < t.length := hfr t (List.mem_cons_self _ _)
      have hrest := fun u hu => hfr u (List.mem_cons_of_mem _ hu)
      simp only [cdOuter]
      rw [if_neg (Nat.not_lt.mpr (Nat.le_of_lt ht))]
      rw [cdInner_eq a b t ht (d y) hys]
      rcases hb : (d y).any fun v => !decide (t = v) && decide (pyIndex t a = pyIndex v b)
        with _ | _
      · exact ih _ hrest
      · exact ih _ hrest
  constructor
  · exact hcd (d x) (d x) hxs
  · unfold revise
    simp only [hov]
    rcases hc : compare_domain a b (d x) (d y) with _ | nw
    · exact absurd hc (hcd (d x) (d x) hxs)
    · simp

theorem claim10_witness :
    compare_domain 0 0 (initDomains cwWit4 vA4) (initDomains cwWit4 vB4) ≠ none ∧
      revise cwWit4 (initDomains cwWit4) vA4 vB4 ≠ none :=
  claim10_safety cwWit4 (initDomains cwWit4) vA4 vB4 0 0 (by decide)
    (by decide) (by decide)

/-- C4: arc-consistency soundness — whenever the seeded `ac3` run returns
`True` on a well-formed puzzle whose domains are node-consistent and
duplicate-free, then for every ordered pair of puzzle variables `(x, y)` with
a defined overlap `(a, b)`, every word `w` remaining in `domain(x)` has at
least one word `v` in `domain(y)` with `v` distinct from `w` and `w[a]` equal
to `v[b]`. -/
theorem claim4_arc_soundness (c : Crossword) (d : Domains) (hwf : wfOverlaps c)
    (hlen : ∀ v ∈ c.vars, ∀ w ∈ d v, w.length = v.length)
    (hnd : ∀ v ∈ c.vars, (d v).Nodup)
    (x y : Variable) (hx : x ∈ c.vars) (hy : y ∈ c.vars) (hxy : x ≠ y)
    (a b : Nat) (hov : c.overlaps x y = some (a, b))
    (hrun : (ac3 c d none).flag = some true) :
    arcConsistent a b ((ac3 c d none).doms d x) ((ac3 c d none).doms d y) := by
  rcases hres : ac3 c d none with _ | _ | ⟨bf, d2⟩
  · rw [hres] at hrun; cases hrun
  · rw [hres] at hrun; cases hrun
  · rw [hres] at hrun
    injection hrun with hbf
    subst hbf
    rw [ac3_none_eq] at hres
    simp only [Ac3Res.doms]
    have := ac3Go_inv c hwf _ (seedArcs c) d
      (fun p hp => seedArcs_wf hp) hlen hnd
      (fun x2 y2 hx2 hy2 hxy2 o2 ho2 =>
        Or.inl (seedArcs_mem hx2 hy2 (Ne.symm hxy2) (by rw [ho2]; rfl)))
      d2 hres x y hx hy hxy (a, b) hov
    exact this

theorem claim4_witness :
    arcConsistent 0 0
      ((ac3 cwWit4 (initDomains cwWit4) none).doms (initDomains cwWit4) vA4)
      ((ac3 cwWit4 (initDomains cwWit4) none).doms (initDomains cwWit4) vB4) :=
  claim4_arc_soundness cwWit4 (initDomains cwWit4) (by decide) (by decide)
    (by decide) vA4 vB4 (by decide) (by decide) (by decide) 0 0 (by decide)
    (by decide)

theorem solve_eq_backtrack {c : Crossword} {b : Bool} {d2 : Domains}
    (h : ac3 c (enforce_node_consistency c (initDomains c)) none = .ok b d2) :
    solve c = backtrack c (c.vars.length + 1) d2 [] := by
  unfold solve
  rw [h]

/-- C2: every non-`None` assignment returned by `solve` is complete (it
assigns a word to every variable of the puzzle) and satisfies the
`consistent` predicate: all assigned words are pairwise distinct, each
assigned word's length equals its variable's length, and for every pair of
assigned variables with a defined overlap the characters at the overlap
offsets are equal. -/
theorem claim2_solve_soundness (c : Crossword) (r : Assign)
    (h : (solve c).result = some (some r)) :
    assignment_complete c r = true ∧
    consistent c r = some true ∧
    (r.map (fun p => p.2)).Nodup ∧
    (∀ p ∈ r, (p : Variable × Word).2.length = p.1.length) ∧
    (∀ p ∈ r, ∀ q ∈ r, (q : Variable × Word).1 ≠ (p : Variable × Word).1 →
      ∀ o, c.overlaps q.1 p.1 = some o →
        ∃ ch, pyIndex q.2 o.1 = some ch ∧ pyIndex p.2 o.2 = some ch) := by
  rcases hac : ac3 c (enforce_node_consistency c (initDomains c)) none
    with _ | _ | ⟨b, d2⟩
  · rw [show solve c = .out by unfold solve; rw [hac]] at h
    cases h
  · rw [show solve c = .exc by unfold solve; rw [hac]] at h
    cases h
  · rw [solve_eq_backtrack hac] at h
    rcases hbt : backtrack c (c.vars.length + 1) d2 [] with _ | _ | ⟨res, d3, a3⟩
    · rw [hbt] at h; cases h
    · rw [hbt] at h; cases h
    · rw [hbt] at h
      simp only [BtRes.result, Option.some_inj] at h
      rcases backtrack_sound c (c.vars.length + 1) d2 [] (by simp)
        (consistent_nil c) res d3 a3 hbt r h
        with ⟨_, _, _, hcomp, hcons, _⟩
      rcases consistent_true_iff.mp hcons with ⟨hvals, hprops⟩
      exact ⟨hcomp, hcons, hvals, fun p hp => (hprops p hp).1,
        fun p hp q hq => (hprops p hp).2 q hq⟩

theorem claim2_witness :
    assignment_complete cwWit2 [(vA2, ['c', 'a', 't']), (vB2, ['a', 't', 'e'])] = true ∧
    consistent cwWit2 [(vA2, ['c', 'a', 't']), (vB2, ['a', 't', 'e'])] = some true ∧
    (([(vA2, ['c', 'a', 't']), (vB2, ['a', 't', 'e'])] : Assign).map
      (fun p => p.2)).Nodup ∧
    (∀ p ∈ ([(vA2, ['c', 'a', 't']), (vB2, ['a', 't', 'e'])] : Assign),
      (p : Variable × Word).2.length = p.1.length) ∧
    (∀ p ∈ ([(vA2, ['c', 'a', 't']), (vB2, ['a', 't', 'e'])] : Assign),
      ∀ q ∈ ([(vA2, ['c', 'a', 't']), (vB2, ['a', 't', 'e'])] : Assign),
      (q : Variable × Word).1 ≠ (p : Variable × Word).1 →
      ∀ o, cwWit2.overlaps q.1 p.1 = some o →
        ∃ ch, pyIndex q.2 o.1 = some ch ∧ pyIndex p.2 o.2 = some ch) :=
  claim2_solve_soundness cwWit2 [(vA2, ['c', 'a', 't']), (vB2, ['a', 't', 'e'])]
    (by decide)

theorem btCalls_succ (c : Crossword) (n : Nat) (d : Domains) (a : Assign) :
    btCalls c (n + 1) d a =
      1 + (if assignment_complete c a then 0
        else
          match select_unassigned_variable c d a with
          | none => 0
          | some var =>
            match order_domain_values c d var a with
            | none => 0
            | some vals => btCallsLoop c (backtrack c n) (btCalls c n) var vals d a) := rfl

theorem btCalls_ne_zero (c : Crossword) : ∀ (fuel : Nat) (d : Domains) (a : Assign),
    btCalls c fuel d a ≠ 0 := by
  intro fuel d a
  cases fuel with
  | zero => exact one_ne_zero
  | succ n =>
    rw [btCalls_succ]
    omega

/-- C1 as stated is false on the code (see `claim1_counterexample`): `solve`
discards `ac3`'s return value. Amended claim: if any variable's domain
becomes empty during AC-3 propagation, `ac3` reports failure (returns
`False`) and `solve` returns "no solution" (`None`) — but it does so by
invoking the backtracking search anyway, which first selects the emptied
variable (its domain has minimal size 0), finds no values to try, and fails
immediately. -/
theorem claim1_amended (c : Crossword)
    (h : (ac3 c (enforce_node_consistency c (initDomains c)) none).flag = some false) :
    (solve c).result = some none ∧ solveCalls c ≠ 0 := by
  rcases hac : ac3 c (enforce_node_consistency c (initDomains c)) none
    with _ | _ | ⟨b, d2⟩
  · rw [hac] at h; cases h
  · rw [hac] at h; cases h
  · rw [hac] at h
    injection h with hb
    subst hb
    obtain ⟨x, hx, hxe⟩ : ∃ x ∈ c.vars, d2 x = [] := by
      rw [ac3_none_eq] at hac
      exact ac3Go_false_empty c _ _ _ d2 (fun p hp => (seedArcs_wf hp).1) hac
    have hincomp : assignment_complete c [] = false := by
      rcases hb2 : assignment_complete c [] with _ | _
      · rfl
      · exfalso
        have := assignment_complete_iff.mp hb2 x hx
        simp [dGet] at this
    obtain ⟨var, hsel⟩ := select_isSome (d := d2) hincomp
    have hvare : d2 var = [] := by
      have hle := select_min hsel x hx rfl
      rw [hxe] at hle
      simp only [List.length_nil, Nat.le_zero] at hle
      exact List.length_eq_zero.mp hle
    have hodv := odv_empty (c := c) (a := ([] : Assign)) hvare
    have hbt : backtrack c (c.vars.length + 1) d2 [] = .ok none d2 [] := by
      rw [backtrack_succ, if_neg (by simp [hincomp]), hsel]
      simp only []
      rw [hodv]
      simp only []
      rfl
    constructor
    · rw [solve_eq_backtrack hac, hbt]
      rfl
    · unfold solveCalls
      rw [hac]
      exact btCalls_ne_zero c _ d2 []

/-- C1's counterexample: on two crossing length-1 slots over `{"a", "b"}`,
AC-3 empties a domain and returns `False`, yet `solve` still enters the
backtracking search exactly once (`solve` ignores `ac3`'s return value),
refuting "without invoking the backtracking search". -/
theorem claim1_counterexample :
    (ac3 cwWit1 (enforce_node_consistency cwWit1 (initDomains cwWit1)) none).flag
        = some false ∧
      solveCalls cwWit1 = 1 := by
  decide

theorem claim1_witness : (solve cwWit1).result = some none ∧ solveCalls cwWit1 ≠ 0 :=
  claim1_amended cwWit1 (by decide)

/-- C3: backtracking completeness over the initial domains — on a well-formed
puzzle, if some complete assignment drawing every word from the word list
satisfies `consistent`, then `solve` returns such an assignment (complete,
consistent, all words from the word list); and if none exists, `solve`
returns `None` after exhausting all possibilities. -/
theorem claim3_completeness (c : Crossword) (hwf : wfOverlaps c)
    (hwords : c.words.Nodup) :
    ((∃ sol : Assign, assignment_complete c sol = true ∧
        consistent c sol = some true ∧ (∀ p ∈ sol, (p : Variable × Word).2 ∈ c.words)) →
      ∃ r d2 a2, solve c = .ok (some r) d2 a2 ∧
        assignment_complete c r = true ∧ consistent c r = some true ∧
        (∀ p ∈ r, (p : Variable × Word).1 ∈ c.vars ∧ p.2 ∈ c.words)) ∧
    ((¬ ∃ sol : Assign, assignment_complete c sol = true ∧
        consistent c sol = some true ∧ (∀ p ∈ sol, (p : Variable × Word).2 ∈ c.words)) →
      (solve c).result = some none) := by
  have hnd0 : ∀ v, (initDomains c v).Nodup := fun _ => hwords
  have hlen1 : ∀ v ∈ c.vars, ∀ w ∈ enforce_node_consistency c (initDomains c) v,
      w.length = v.length := by
    intro v hv w hw
    exact (((enforce_mem c _ hnd0 v w).mp hw).2 hv).symm
  have hnd1 : ∀ v ∈ c.vars, (enforce_node_consistency c (initDomains c) v).Nodup :=
    fun v _ => enforce_nodup c _ hnd0 v
  have hw1 : ∀ v, ∀ w ∈ enforce_node_consistency c (initDomains c) v, w ∈ c.words :=
    fun v w hw => (enforce_sublist c (initDomains c) v).mem hw
  constructor
  · rintro ⟨sol, hsolc, hsolcons, hsolw⟩
    have hdom1 : ∀ v ∈ c.vars, ∀ w, dGet sol v = some w →
        w ∈ enforce_node_consistency c (initDomains c) v := by
      intro v hv w hw
      have hm := dGet_some_mem hw
      apply (enforce_mem c _ hnd0 v w).mpr
      refine ⟨hsolw (v, w) hm, fun _ => ?_⟩
      exact (((consistent_true_iff.mp hsolcons).2 (v, w) hm).1).symm
    have hcompsol : ∀ v ∈ c.vars, ∃ w, dGet sol v = some w := by
      intro v hv
      have := assignment_complete_iff.mp hsolc v hv
      rcases hg : dGet sol v with _ | w
      · rw [hg] at this; cases this
      · exact ⟨w, rfl⟩
    rcases hac : ac3 c (enforce_node_consistency c (initDomains c)) none
      with _ | _ | ⟨b, d2⟩
    · exact absurd hac (ac3_not_out c _)
    · exfalso
      rw [ac3_none_eq] at hac
      exact ac3Go_no_exc c hwf _ _ _ (fun p hp => seedArcs_wf hp) hlen1 hnd1 hac
    · have hacGo := hac
      rw [ac3_none_eq] at hacGo
      obtain ⟨hb, hdom2⟩ := ac3Go_sol c hwf hcompsol hsolcons _ _ _
        (fun p hp => seedArcs_wf hp) hlen1 hnd1 hdom1 b d2 hacGo
      subst hb
      have hsub2 : ∀ v, (d2 v).Sublist (enforce_node_consistency c (initDomains c) v) :=
        ac3Go_sublist c _ _ _ true d2 hacGo
      have hlen2 : ∀ v ∈ c.vars, ∀ w ∈ d2 v, w.length = v.length :=
        fun v hv w hw => hlen1 v hv w ((hsub2 v).mem hw)
      obtain ⟨r, d3, a3, hbt⟩ := backtrack_complete c hwf (c.vars.length + 1) d2 [] sol
        hlen2 (by simp) (by simp)
        (Nat.lt_succ_of_le (List.filter_sublist _).length_le)
        hsolcons hsolc (by simp)
        (fun v hv _ w hw => hdom2 v hv w hw)
      rcases backtrack_sound c (c.vars.length + 1) d2 [] (by simp) (consistent_nil c)
        (some r) d3 a3 hbt r rfl with ⟨_, _, _, hcomp, hcons, hbind⟩
      refine ⟨r, d3, a3, ?_, hcomp, hcons, ?_⟩
      · rw [solve_eq_backtrack hac]
        exact hbt
      · intro p hp
        rcases hbind p hp (List.not_mem_nil p) with ⟨h1, h2⟩
        exact ⟨h1, hw1 p.1 p.2 ((hsub2 p.1).mem h2)⟩
  · intro hno
    rcases hac : ac3 c (enforce_node_consistency c (initDomains c)) none
      with _ | _ | ⟨b, d2⟩
    · exact absurd hac (ac3_not_out c _)
    · exfalso
      rw [ac3_none_eq] at hac
      exact ac3Go_no_exc c hwf _ _ _ (fun p hp => seedArcs_wf hp) hlen1 hnd1 hac
    · have hacGo := hac
      rw [ac3_none_eq] at hacGo
      have hsub2 : ∀ v, (d2 v).Sublist (enforce_node_consistency c (initDomains c) v) :=
        ac3Go_sublist c _ _ _ b d2 hacGo
      have hlen2 : ∀ v ∈ c.vars, ∀ w ∈ d2 v, w.length = v.length :=
        fun v hv w hw => hlen1 v hv w ((hsub2 v).mem hw)
      obtain ⟨res, d3, a3, hbt⟩ := backtrack_ne c hwf (c.vars.length + 1) d2 []
        hlen2 (by simp) (by simp)
        (Nat.lt_succ_of_le (List.filter_sublist _).length_le)
      rcases res with _ | r
      · rw [solve_eq_backtrack hac, hbt]
        rfl
      · exfalso
        rcases backtrack_sound c (c.vars.length + 1) d2 [] (by simp) (consistent_nil c)
          (some r) d3 a3 hbt r rfl with ⟨_, _, _, hcomp, hcons, hbind⟩
        apply hno
        refine ⟨r, hcomp, hcons, ?_⟩
        intro p hp
        rcases hbind p hp (List.not_mem_nil p) with ⟨_, h2⟩
        exact hw1 p.1 p.2 ((hsub2 p.1).mem h2)

theorem claim3_witness :
    ∃ r d2 a2, solve cwWit2 = .ok (some r) d2 a2 ∧
      assignment_complete cwWit2 r = true ∧ consistent cwWit2 r = some true ∧
      (∀ p ∈ r, (p : Variable × Word).1 ∈ cwWit2.vars ∧ p.2 ∈ cwWit2.words) :=
  (claim3_completeness cwWit2 (by decide) (by decide)).1
    ⟨[(vA2, ['c', 'a', 't']), (vB2, ['a', 't', 'e'])], by decide, by decide, by decide⟩
